import Mathlib

/-!
Verification development for the `mem_dbg` crate: a shallow embedding of the
recursive size-accounting engine (`impl_mem_size.rs`), of the debug-tree
renderer (`lib.rs` `_mem_dbg_depth_on` together with the code generated by
`mem_dbg-derive`), and of the flag bitsets (`SizeFlags`, `DbgFlags`).

Machine integers are modelled as `Nat`; all arithmetic in the engine is
addition, multiplication, division and (truncated) subtraction on `usize`
values, and the development proves the subtractions never underflow on
well-typed values, so `Nat` is a faithful carrier.  Host layout quantities
(`core::mem::size_of`, `align_of`) are modelled for the x86_64 Linux target
the crate is developed on: pointers are 8 bytes, `String`/`Vec` headers are
24 bytes, the Swiss-table group width is 16.
-/

namespace MemDbg

/-- Flags for the size engine, from `SizeFlags` in `lib.rs` (bits
`FOLLOW_REFS`, `CAPACITY`, `FOLLOW_RC`). -/
structure SizeFlags where
  followRefs : Bool
  capacity : Bool
  followRc : Bool
deriving DecidableEq, Repr

/-- The default set of size flags is the empty set (`Default for SizeFlags`). -/
def SizeFlags.dflt : SizeFlags := ⟨false, false, false⟩

/-- Flags for the debug-tree renderer, from `DbgFlags` in `lib.rs`. -/
structure DbgFlags where
  followRefs : Bool
  humanize : Bool
  percentage : Bool
  typeName : Bool
  capacity : Bool
  separator : Bool
  rustLayout : Bool
  color : Bool
  followRc : Bool
deriving DecidableEq, Repr

/-- Translation of the flags shared with the size engine
(`DbgFlags::to_size_flags`). -/
def DbgFlags.toSizeFlags (d : DbgFlags) : SizeFlags :=
  ⟨d.followRefs, d.capacity, d.followRc⟩

/-- The default set of debug flags contains `TYPE_NAME`, `SEPARATOR` and
`PERCENTAGE` (`Default for DbgFlags`). -/
def DbgFlags.dflt : DbgFlags :=
  ⟨false, false, true, true, false, true, false, false, false⟩

mutual
/-- Static (stack) types of the values the engine traverses.  Each
constructor records exactly the layout data the source consults through
`core::mem::size_of`/`align_of` on the static type. -/
inductive RTy where
  | prim (sz al : Nat) (copy : Bool)
  | strT
  | stringT
  | rrefT (t : RTy)
  | boxT (t : RTy)
  | rcT (t : RTy)
  | optT (t : RTy)
  | tupT (ts : RTys)
  | enumT (sz al : Nat)
  | vecT (t : RTy)
  | dequeT (t : RTy)
  | arrT (n : Nat) (t : RTy)
  | hashSetT (t : RTy)
  | btreeSetT (t : RTy)
deriving DecidableEq, Repr
inductive RTys where
  | nil
  | cons (t : RTy) (ts : RTys)
deriving DecidableEq, Repr
end

/-- Round `sz` up to a multiple of the alignment `al`.  The source computes
`(size + align - 1) & !(align - 1)`; for the power-of-two alignments the host
uses this equals the division form below. -/
def alignUp (sz al : Nat) : Nat := (sz + al - 1) / al * al

/-- Size of a pointer to a value of static type `t`: 8 bytes, except that a
pointer to the unsized `str` is a fat pointer of 16 bytes. -/
def ptrSizeOf : RTy → Nat
  | .strT => 16
  | _ => 8

mutual
/-- Alignment of a static type (`core::mem::align_of`), at least 1. -/
def alignOf : RTy → Nat
  | .prim _ al _ => max 1 al
  | .strT => 1
  | .stringT => 8
  | .rrefT _ => 8
  | .boxT _ => 8
  | .rcT _ => 8
  | .optT t => alignOf t
  | .tupT ts => alignsOf ts
  | .enumT _ al => max 1 al
  | .vecT _ => 8
  | .dequeT _ => 8
  | .arrT _ t => alignOf t
  | .hashSetT _ => 8
  | .btreeSetT _ => 8
def alignsOf : RTys → Nat
  | .nil => 1
  | .cons t ts => max (alignOf t) (alignsOf ts)
end

mutual
/-- Stack size of a static type (`core::mem::size_of`).  Composite structs
and tuples are laid out like C in declaration order; `Option` is modelled
without niche optimization as payload plus one aligned tag. -/
def sizeOf' : RTy → Nat
  | .prim sz _ _ => sz
  | .strT => 0
  | .stringT => 24
  | .rrefT t => ptrSizeOf t
  | .boxT t => ptrSizeOf t
  | .rcT _ => 8
  | .optT t => sizeOf' t + alignOf t
  | .tupT ts => alignUp (offEnd ts 0) (alignsOf ts)
  | .enumT sz _ => sz
  | .vecT _ => 24
  | .dequeT _ => 32
  | .arrT n t => n * sizeOf' t
  | .hashSetT _ => 48
  | .btreeSetT _ => 24
def offEnd : RTys → Nat → Nat
  | .nil, off => off
  | .cons t ts, off => offEnd ts (alignUp off (alignOf t) + sizeOf' t)
end

/-- The `CopyType` classification of a static type: `True` (fast path) or
`False` (element-by-element).  Scalars carry their flag; references,
strings, vectors, tuples and collections are `False`; `Option` and arrays
inherit from the element, as in the source's `CopyType` impls. -/
def isCopy : RTy → Bool
  | .prim _ _ c => c
  | .optT t => isCopy t
  | .arrT _ t => isCopy t
  | _ => false

/-- Value of `usize::MAX` on the 64-bit host. -/
def usizeMax : Nat := 2 ^ 64 - 1

/-- Group width of the Swiss-table control bytes (`GROUP_WIDTH`): 16 on
x86_64 with SSE2. -/
def groupWidth : Nat := 16

/-- The host's `usize::next_power_of_two`: the least power of two that is
not smaller than `n` (1 for `n ≤ 1`). -/
def nextPow2 (n : Nat) : Nat := 2 ^ Nat.clog 2 n

/-- Translation of `capacity_to_buckets` from `impl_mem_size.rs`: 0 buckets
for capacity 0, 4 below 4, 8 below 8, otherwise the next power of two after
inflating by 8/7; `none` when `cap * 8` overflows `usize`
(`cap.checked_mul(8)?`). -/
def capacityToBuckets (cap : Nat) : Option Nat :=
  if cap = 0 then some 0
  else if cap < 8 then some (if cap < 4 then 4 else 8)
  else if usizeMax < cap * 8 then none
  else some (nextPow2 (cap * 8 / 7))

/-- Translation of `estimate_btree_size` from `impl_mem_size.rs`,
parameterized by the key and value layout data the source reads off the
static types `K` and `V`. -/
def estimateBtreeSize (kSz kAl vSz vAl len itemHeap : Nat) : Nat :=
  if len = 0 then 0
  else
    let b := 6
    let capacityN := 2 * b - 1
    let ptrSz := 8
    let headerSize := 16
    let leafK := alignUp headerSize kAl + kSz * capacityN
    let leafSize := alignUp leafK vAl + vSz * capacityN
    let internalSize := alignUp leafSize 8 + ptrSz * (capacityN + 1)
    let avgNodeSize := (leafSize * b + internalSize) / (b + 1)
    let heapSize := if len ≤ capacityN then leafSize else len / b * avgNodeSize
    heapSize + itemHeap

/-- Size of the `RcInner<T>`/`ArcInner<T>` allocation header plus payload
(`core::mem::size_of::<RcInner<T>>()`): two `usize` reference counts
followed by the payload, rounded to the allocation's alignment. -/
def rcInnerSize (t : RTy) : Nat := alignUp (16 + sizeOf' t) (max 8 (alignOf t))

mutual
/-- Runtime values traversed by the engine.  References and reference
counted pointers carry the numeric address returned by the pointer cast in
the source together with the pointee; aliasing is modelled by two pointer
nodes carrying the same address.  Containers record the static element type
the source reads sizes from, and growable containers record their
capacity. -/
inductive RVal where
  | prim (sz al : Nat) (copy : Bool)
  | strSlice (len : Nat)
  | strv (len cap : Nat)
  | vref (addr : Nat) (p : RVal)
  | boxed (p : RVal)
  | rcv (addr : Nat) (p : RVal)
  | optNone (t : RTy)
  | optSome (t : RTy) (x : RVal)
  | tupv (fs : RVals)
  | enumv (sz al : Nat) (vname : String) (fs : RVals)
  | vecv (t : RTy) (es : RVals) (cap : Nat)
  | dequev (t : RTy) (es : RVals) (cap : Nat)
  | arrv (t : RTy) (es : RVals)
  | hashSetv (t : RTy) (ks : RVals) (cap : Nat)
  | btreeSetv (t : RTy) (ks : RVals)
deriving DecidableEq, Repr
inductive RVals where
  | nil
  | cons (v : RVal) (vs : RVals)
deriving DecidableEq, Repr
end

mutual
/-- The static type of a value. -/
def tyOf : RVal → RTy
  | .prim sz al c => .prim sz al c
  | .strSlice _ => .strT
  | .strv _ _ => .stringT
  | .vref _ p => .rrefT (tyOf p)
  | .boxed p => .boxT (tyOf p)
  | .rcv _ p => .rcT (tyOf p)
  | .optNone t => .optT t
  | .optSome t _ => .optT t
  | .tupv fs => .tupT (tysOf fs)
  | .enumv sz al _ _ => .enumT sz al
  | .vecv t _ _ => .vecT t
  | .dequev t _ _ => .dequeT t
  | .arrv t es => .arrT (rvalsLen es) t
  | .hashSetv t _ _ => .hashSetT t
  | .btreeSetv t _ => .btreeSetT t
def tysOf : RVals → RTys
  | .nil => .nil
  | .cons v vs => .cons (tyOf v) (tysOf vs)
def rvalsLen : RVals → Nat
  | .nil => 0
  | .cons _ vs => rvalsLen vs + 1
end

/-- Stack size of a value, `core::mem::size_of_val`. -/
def sizeOfVal (v : RVal) : Nat := sizeOf' (tyOf v)

/-- The visited-address table `HashMap<usize, usize>`, as an association
list from address to recorded size. -/
def RefMap := List (Nat × Nat)

/-- The table's `contains_key`. -/
def hasKey (a : Nat) (m : RefMap) : Bool := m.any (fun p => p.1 == a)

/-- The table's `insert`: a `HashMap` insertion replaces any existing entry
for the key. -/
def addKV (a s : Nat) (m : RefMap) : RefMap :=
  (a, s) :: m.filter (fun p => p.1 != a)

/-- Sum of the recorded sizes, `refs.values().sum()`. -/
def sumValues (m : RefMap) : Nat := (m.map (fun p => p.2)).sum

/-- Translation of `fix_set_for_capacity` from `impl_mem_size.rs` for a
hash set with key type `t`, `len` live keys and allocated capacity `cap`:
adds the stack header, the unused buckets, the control byte per bucket and
the group-width constant to the given contents size. -/
def fixSetForCapacity (f : SizeFlags) (t : RTy) (len cap contents : Nat) : Nat :=
  let capacity := if f.capacity then cap else len
  let buckets := (capacityToBuckets capacity).getD usizeMax
  48 + contents + (buckets - len) * sizeOf' t + buckets * 1 +
    (if 0 < buckets then groupWidth else 0)

/-- Translation of `fix_map_for_capacity` from `impl_mem_size.rs` for a
hash map with key type `kT` and value type `vT`: identical to the set
version but with one key-value pair slot per unused bucket. -/
def fixMapForCapacity (f : SizeFlags) (kT vT : RTy) (len cap contents : Nat) : Nat :=
  let capacity := if f.capacity then cap else len
  let buckets := (capacityToBuckets capacity).getD usizeMax
  48 + contents + (buckets - len) * (sizeOf' kT + sizeOf' vT) + buckets * 1 +
    (if 0 < buckets then groupWidth else 0)

mutual
/-- Translation of `MemSize::mem_size_rec` from `impl_mem_size.rs`, per
implementing type, threading the visited-address table through the
traversal and returning the computed size together with the updated
table. -/
def memSizeRec (f : SizeFlags) : RVal → RefMap → Nat × RefMap
  | .prim sz _ _, refs => (sz, refs)
  | .strSlice len, refs => (8 + len, refs)
  | .strv len cap, refs =>
      (24 + (if f.capacity then cap else len), refs)
  | .vref a p, refs =>
      if f.followRefs then
        if hasKey a refs then (ptrSizeOf (tyOf p), refs)
        else
          let r := memSizeRec f p refs
          (ptrSizeOf (tyOf p), addKV a r.1 r.2)
      else (ptrSizeOf (tyOf p), refs)
  | .boxed p, refs =>
      let r := memSizeRec f p refs
      (ptrSizeOf (tyOf p) + r.1, r.2)
  | .rcv a p, refs =>
      if f.followRc then
        if hasKey a refs then (8, refs)
        else
          let r := memSizeRec f p refs
          (8, addKV a (rcInnerSize (tyOf p) + r.1 - sizeOf' (tyOf p)) r.2)
      else (8, refs)
  | .optNone t, refs => (sizeOf' (.optT t), refs)
  | .optSome t x, refs =>
      let r := memSizeRec f x refs
      (sizeOf' (.optT t) + (r.1 - sizeOf' t), r.2)
  | .tupv fs, refs =>
      let r := extraSizes f fs refs
      (sizeOf' (.tupT (tysOf fs)) + r.1, r.2)
  | .enumv sz _ _ fs, refs =>
      let r := extraSizes f fs refs
      (sz + r.1, r.2)
  | .vecv t es cap, refs =>
      if isCopy t then
        (24 + (if f.capacity then cap else rvalsLen es) * sizeOf' t, refs)
      else
        let r := sumSizes f es refs
        if f.capacity then
          (24 + r.1 + (cap - rvalsLen es) * sizeOf' t, r.2)
        else (24 + r.1, r.2)
  | .dequev t es cap, refs =>
      if isCopy t then
        (32 + (if f.capacity then cap else rvalsLen es) * sizeOf' t, refs)
      else
        let r := sumSizes f es refs
        if f.capacity then
          (32 + r.1 + (cap - rvalsLen es) * sizeOf' t, r.2)
        else (32 + r.1, r.2)
  | .arrv t es, refs =>
      if isCopy t then (sizeOf' (.arrT (rvalsLen es) t), refs)
      else
        let r := elemExtraSizes f t es refs
        (sizeOf' (.arrT (rvalsLen es) t) + r.1, r.2)
  | .hashSetv t ks cap, refs =>
      if isCopy t then
        (fixSetForCapacity f t (rvalsLen ks) cap (sizeOf' t * rvalsLen ks), refs)
      else
        let r := sumSizes f ks refs
        (fixSetForCapacity f t (rvalsLen ks) cap r.1, r.2)
  | .btreeSetv t ks, refs =>
      if isCopy t then
        (24 + estimateBtreeSize (sizeOf' t) (alignOf t) 0 1 (rvalsLen ks) 0, refs)
      else
        let r := elemExtraSizes f t ks refs
        (24 + estimateBtreeSize (sizeOf' t) (alignOf t) 0 1 (rvalsLen ks) r.1, r.2)
/-- Sum, over the fields of a derived struct, tuple or enum variant, of
each field's recursive size minus its stack size (the extra-size
convention of the derive layer and the tuple muncher). -/
def extraSizes (f : SizeFlags) : RVals → RefMap → Nat × RefMap
  | .nil, refs => (0, refs)
  | .cons v vs, refs =>
      let r := memSizeRec f v refs
      let rs := extraSizes f vs r.2
      (r.1 - sizeOfVal v + rs.1, rs.2)
/-- Sum of the recursive sizes of the elements of a container whose
per-element sizes already include their stack footprint (`Vec`,
`VecDeque`, `HashSet` on non-`Copy` elements). -/
def sumSizes (f : SizeFlags) : RVals → RefMap → Nat × RefMap
  | .nil, refs => (0, refs)
  | .cons v vs, refs =>
      let r := memSizeRec f v refs
      let rs := sumSizes f vs r.2
      (r.1 + rs.1, rs.2)
/-- Sum, over the elements of a fixed-size array or B-tree set with static
element type `t`, of each element's recursive size minus `size_of::<T>`. -/
def elemExtraSizes (f : SizeFlags) (t : RTy) : RVals → RefMap → Nat × RefMap
  | .nil, refs => (0, refs)
  | .cons v vs, refs =>
      let r := memSizeRec f v refs
      let rs := elemExtraSizes f t vs r.2
      (r.1 - sizeOf' t + rs.1, rs.2)
end

/-- Modelled from the spec: the top-level `mem_size` entry point is not
present under `src/` (the trait declaration in `lib.rs` predates the
`mem_size_rec` implementations); per the specification it creates a fresh
visited-address table for the traversal and the reported total adds, once
per distinct address, the size recorded for that address. -/
def memSize (f : SizeFlags) (v : RVal) : Nat :=
  let r := memSizeRec f v []
  r.1 + sumValues r.2

/-- The table's key lookup (`HashMap::get`). -/
def lookupKV (x : Nat) : RefMap → Option Nat
  | [] => none
  | (a, s) :: rest => if a == x then some s else lookupKV x rest

/-- Observable events of one traversal of the visited-address table:
`enter a` marks the start of the recursion into the pointee stored at
address `a`, `ins a` marks the insertion of `a` into the table. -/
inductive REvent where
  | enter (a : Nat)
  | ins (a : Nat)
deriving DecidableEq, Repr

mutual
/-- The ordered list of visited-table events produced by
`mem_size_rec`, read off the reference and `Rc`/`Arc` implementations in
`impl_mem_size.rs`: on a first visit the code checks `contains_key`,
recurses into the pointee, and only then inserts the address. -/
def traceOf (f : SizeFlags) : RVal → RefMap → List REvent
  | .vref a p, refs =>
      if f.followRefs then
        if hasKey a refs then []
        else .enter a :: traceOf f p refs ++ [.ins a]
      else []
  | .rcv a p, refs =>
      if f.followRc then
        if hasKey a refs then []
        else .enter a :: traceOf f p refs ++ [.ins a]
      else []
  | .boxed p, refs => traceOf f p refs
  | .optSome _ x, refs => traceOf f x refs
  | .tupv fs, refs => traceList f fs refs
  | .enumv _ _ _ fs, refs => traceList f fs refs
  | .vecv t es _, refs => if isCopy t then [] else traceList f es refs
  | .dequev t es _, refs => if isCopy t then [] else traceList f es refs
  | .arrv t es, refs => if isCopy t then [] else traceList f es refs
  | .hashSetv t ks _, refs => if isCopy t then [] else traceList f ks refs
  | .btreeSetv t ks, refs => if isCopy t then [] else traceList f ks refs
  | _, _ => []
/-- Events of traversing a list of children in order, threading the table
exactly as the size computation does. -/
def traceList (f : SizeFlags) : RVals → RefMap → List REvent
  | .nil, _ => []
  | .cons v vs, refs => traceOf f v refs ++ traceList f vs (memSizeRec f v refs).2
end

mutual
/-- Whether address `a` occurs as the address of some reference or
reference-counted pointer anywhere inside the value. -/
def refMentions (a : Nat) : RVal → Bool
  | .vref b p => a == b || refMentions a p
  | .rcv b p => a == b || refMentions a p
  | .boxed p => refMentions a p
  | .optSome _ x => refMentions a x
  | .tupv fs => refMentionsList a fs
  | .enumv _ _ _ fs => refMentionsList a fs
  | .vecv _ es _ => refMentionsList a es
  | .dequev _ es _ => refMentionsList a es
  | .arrv _ es => refMentionsList a es
  | .hashSetv _ ks _ => refMentionsList a ks
  | .btreeSetv _ ks => refMentionsList a ks
  | _ => false
/-- List version of `refMentions`. -/
def refMentionsList (a : Nat) : RVals → Bool
  | .nil => false
  | .cons v vs => refMentions a v || refMentionsList a vs
end

mutual
/-- Every growable container inside the value has a length that does not
exceed its capacity, as the host library guarantees for real values. -/
def capOk : RVal → Bool
  | .prim _ _ _ => true
  | .strSlice _ => true
  | .strv len cap => len ≤ cap
  | .vref _ p => capOk p
  | .boxed p => capOk p
  | .rcv _ p => capOk p
  | .optNone _ => true
  | .optSome _ x => capOk x
  | .tupv fs => capOkList fs
  | .enumv _ _ _ fs => capOkList fs
  | .vecv _ es cap => decide (rvalsLen es ≤ cap) && capOkList es
  | .dequev _ es cap => decide (rvalsLen es ≤ cap) && capOkList es
  | .arrv _ es => capOkList es
  | .hashSetv _ ks cap => decide (rvalsLen ks ≤ cap) && capOkList ks
  | .btreeSetv _ ks => capOkList ks
/-- List version of `capOk`. -/
def capOkList : RVals → Bool
  | .nil => true
  | .cons v vs => capOk v && capOkList vs
end

mutual
/-- Every growable container inside the value has a length equal to its
capacity. -/
def fullCap : RVal → Bool
  | .prim _ _ _ => true
  | .strSlice _ => true
  | .strv len cap => len == cap
  | .vref _ p => fullCap p
  | .boxed p => fullCap p
  | .rcv _ p => fullCap p
  | .optNone _ => true
  | .optSome _ x => fullCap x
  | .tupv fs => fullCapList fs
  | .enumv _ _ _ fs => fullCapList fs
  | .vecv _ es cap => rvalsLen es == cap && fullCapList es
  | .dequev _ es cap => rvalsLen es == cap && fullCapList es
  | .arrv _ es => fullCapList es
  | .hashSetv _ ks cap => rvalsLen ks == cap && fullCapList ks
  | .btreeSetv _ ks => fullCapList ks
/-- List version of `fullCap`. -/
def fullCapList : RVals → Bool
  | .nil => true
  | .cons v vs => fullCap v && fullCapList vs
end

/-- Bucket-count formula exactly as the specification words it: 0 buckets
for an empty table, 4 buckets for fewer than 4 entries, 8 buckets for fewer
than 8, otherwise `(count * 8) / 7` rounded up to the next power of two. -/
def claimedBuckets (c : Nat) : Nat :=
  if c = 0 then 0
  else if c < 4 then 4
  else if c < 8 then 8
  else nextPow2 (c * 8 / 7)

/-- Digit-counting loop of `n_of_digits` in `utils.rs`. -/
def digitsLoop : Nat → Nat
  | 0 => 0
  | x + 1 => digitsLoop ((x + 1) / 10) + 1

/-- Translation of `n_of_digits` from `utils.rs`. -/
def nOfDigits (x : Nat) : Nat := if x = 0 then 1 else digitsLoop x

/-- Failure outcomes of the debug-tree renderer: a sink write failure
(`core::fmt::Error` propagated by `?`) or the `assert!` in the generated
enum code rejecting `DbgFlags::RUST_LAYOUT` without the `offset_of_enum`
feature. -/
inductive RErr where
  | writeFailed
  | assertFailed
deriving DecidableEq, Repr

/-- Content of one node line written by `_mem_dbg_depth_on` in `lib.rs`:
the printed size, the printed percentage (when `PERCENTAGE` is set), the
indentation shown (the prefix with its first two characters skipped, one
entry per ancestor level, `true` for a last child), the branch glyph
(`╰` versus `├`, present when the prefix is nonempty), the field name, the
type annotation (when `TYPE_NAME` is set), and the padding byte count
(printed when nonzero). -/
structure NodeLine where
  size : Nat
  pct : Option ℚ
  pfxShown : List Bool
  glyphLast : Option Bool
  name : Option String
  tyShown : Option RTy
  padByte : Nat
deriving DecidableEq, Repr

/-- Content of the variant header line written by the generated enum
`_mem_dbg_rec_on`: the number of leading alignment spaces, the shown
indentation, whether the arrow is the closing `╰` (unit variant) rather
than `├`, and the variant name. -/
structure VarLine where
  width : Nat
  pfxShown : List Bool
  arrowClosed : Bool
  vname : String
deriving DecidableEq, Repr

/-- One line of renderer output. -/
inductive OutLine where
  | node (l : NodeLine)
  | variant (l : VarLine)
deriving DecidableEq, Repr

/-- Whether an output line is a variant header line. -/
def OutLine.isVariantLine : OutLine → Bool
  | .node _ => false
  | .variant _ => true

/-- Result of a renderer call: the lines written, the next write index on
the sink, and the failure outcome if any. -/
structure ROut where
  lines : List OutLine
  widx : Nat
  err : Option RErr
deriving DecidableEq, Repr

/-- Byte length of the indentation prefix (`prefix.len()` in the source):
each level pushed two characters, `"  "` (2 bytes) after a last child and
`"│ "` (4 bytes, `│` is three bytes of UTF-8) otherwise. -/
def pfxByteLen (pfx : List Bool) : Nat :=
  (pfx.map (fun b => if b then 2 else 4)).sum

/-- Offsets of the fields of a C-like struct layout, continuing from
offset `off`. -/
def offsetsFrom : RTys → Nat → List Nat
  | .nil, _ => []
  | .cons t ts, off =>
      let o := alignUp off (alignOf t)
      o :: offsetsFrom ts (o + sizeOf' t)

/-- Differences of consecutive offsets, closed with the total size: the
padded size attributed to each field by the tuple renderer (which pushes
the offsets plus `size_of::<Self>`, sorts, and takes differences; with the
C-like layout the offsets are already in declaration order). -/
def diffPads : List Nat → Nat → List Nat
  | [], _ => []
  | [o], total => [total - o]
  | o1 :: o2 :: rest, total => (o2 - o1) :: diffPads (o2 :: rest) total

/-- Padded sizes of tuple components, from the offset computation of the
tuple `_mem_dbg_rec_on` in `impl_mem_dbg.rs`. -/
def fieldPads (ts : RTys) : List Nat :=
  diffPads (offsetsFrom ts 0) (sizeOf' (.tupT ts))

/-- The surrogate padded sizes used by the generated enum code without the
`offset_of_enum` feature: each field's `size_of_val`. -/
def surrPads : RVals → List Nat
  | .nil => []
  | .cons v vs => sizeOfVal v :: surrPads vs

/-- Whether a field list is empty (drives the enum arrow glyph). -/
def rvalsEmpty : RVals → Bool
  | .nil => true
  | .cons _ _ => false

/-- The alignment width computed at the top of the generated enum
`_mem_dbg_rec_on`: the digit count of the total (separator-adjusted, or 6
under `HUMANIZE`), plus 8 under `PERCENTAGE`. -/
def enumWidth (fl : DbgFlags) (total : Nat) : Nat :=
  let w0 := nOfDigits total
  let w1 := if fl.separator then w0 + w0 / 3 else w0
  let w2 := if fl.humanize then 6 else w1
  if fl.percentage then w2 + 8 else w2

mutual
/-- Translation of `MemDbgImpl::_mem_dbg_depth_on` from `lib.rs`: prune
when the prefix byte length exceeds `maxD`, recompute the node's size,
write the node line (one sink operation), extend the prefix with the
`is_last` unit and recurse through `_mem_dbg_rec_on`. -/
def memDbgDepthOn (sink : Nat → Bool) (fl : DbgFlags) (total maxD : Nat)
    (v : RVal) (pfx : List Bool) (nm : Option String) (isLast : Bool)
    (padded : Nat) (widx : Nat) : ROut :=
  if pfxByteLen pfx > maxD then ⟨[], widx, none⟩
  else
    let realSize := memSize fl.toSizeFlags v
    if sink widx then
      let line : NodeLine :=
        { size := realSize
          pct := if fl.percentage then
                   some (if total = 0 then (100 : ℚ)
                         else 100 * (realSize : ℚ) / (total : ℚ))
                 else none
          pfxShown := pfx.drop 1
          glyphLast := if pfx.isEmpty then none else some isLast
          name := nm
          tyShown := if fl.typeName then some (tyOf v) else none
          padByte := padded - sizeOfVal v }
      let r := memDbgRecOn sink fl total maxD v (pfx ++ [isLast]) (widx + 1)
      ⟨.node line :: r.lines, r.widx, r.err⟩
    else ⟨[], widx + 1, some .writeFailed⟩
/-- Dispatch of `_mem_dbg_rec_on`: the no-op default implementation for
leaves and containers, forwarding for `Box`, the tuple muncher of
`impl_mem_dbg.rs` for tuples, and the code generated by the derive layer
for enums, including its variant header line and its `assert!` on
`RUST_LAYOUT` (modelling the build without the `offset_of_enum`
feature). -/
def memDbgRecOn (sink : Nat → Bool) (fl : DbgFlags) (total maxD : Nat)
    (v : RVal) (pfx : List Bool) (widx : Nat) : ROut :=
  match v with
  | .boxed p => memDbgRecOn sink fl total maxD p pfx widx
  | .tupv fs =>
      renderFields sink fl total maxD pfx fs (fieldPads (tysOf fs)) 0
        (rvalsLen fs) widx
  | .enumv _ _ nm fs =>
      if sink widx then
        let vline : VarLine := ⟨enumWidth fl total + 3, pfx.drop 1, rvalsEmpty fs, nm⟩
        if fl.rustLayout then ⟨[.variant vline], widx + 1, some .assertFailed⟩
        else
          let r := renderFields sink fl total maxD pfx fs (surrPads fs) 0
            (rvalsLen fs) (widx + 1)
          ⟨.variant vline :: r.lines, r.widx, r.err⟩
      else ⟨[], widx + 1, some .writeFailed⟩
  | _ => ⟨[], widx, none⟩
/-- Render the fields of a composite in order: field `i` of `n` is a last
child exactly when `i = n - 1`; a failure aborts the remaining fields
(the `?` operator). -/
def renderFields (sink : Nat → Bool) (fl : DbgFlags) (total maxD : Nat)
    (pfx : List Bool) (vs : RVals) (pads : List Nat) (i n widx : Nat) : ROut :=
  match vs with
  | .nil => ⟨[], widx, none⟩
  | .cons v rest =>
      let r := memDbgDepthOn sink fl total maxD v pfx (some (toString i))
        (i + 1 == n) (pads.headD 0) widx
      match r.err with
      | some e => ⟨r.lines, r.widx, some e⟩
      | none =>
          let rs := renderFields sink fl total maxD pfx rest pads.tail
            (i + 1) n r.widx
          ⟨r.lines ++ rs.lines, rs.widx, rs.err⟩
end

/-- Translation of `MemDbg::mem_dbg_depth`/`_mem_dbg_depth`: computes the
total size once, then renders from an empty prefix with the root marker
`⏺`, `is_last = true` and `padded_size = size_of_val(self)`.  The sink
stands for the stderr writer wrapper. -/
def memDbgDepth (sink : Nat → Bool) (fl : DbgFlags) (v : RVal)
    (maxD : Nat) : ROut :=
  memDbgDepthOn sink fl (memSize fl.toSizeFlags v) maxD v [] (some ("⏺"))
    true (sizeOfVal v) 0

/-- Translation of `MemDbg::mem_dbg`, which calls `_mem_dbg_depth` with
`max_depth = usize::MAX`. -/
def memDbg (sink : Nat → Bool) (fl : DbgFlags) (v : RVal) : ROut :=
  memDbgDepth sink fl v usizeMax

/-- A sink whose writes always succeed. -/
def allOk : Nat → Bool := fun _ => true

/-! ### Basic lemmas about alignment and the visited-address table -/

theorem le_alignUp (n al : Nat) (h : 0 < al) : n ≤ alignUp n al := by
  have h1 := Nat.lt_div_mul_add (a := n + al - 1) h
  unfold alignUp
  omega

theorem hasKey_addKV_self (a s : Nat) (m : RefMap) :
    hasKey a (addKV a s m) = true := by
  simp [hasKey, addKV]

theorem filter_eq_of_not_hasKey (a : Nat) (m : RefMap)
    (h : hasKey a m = false) : m.filter (fun p => p.1 != a) = m := by
  induction m with
  | nil => rfl
  | cons p rest ih =>
      simp only [hasKey, List.any_cons, Bool.or_eq_false_iff] at h
      have hne : p.1 ≠ a := by simpa using h.1
      simp [List.filter_cons, hne, ih h.2]

theorem sumValues_addKV (a s : Nat) (m : RefMap) (h : hasKey a m = false) :
    sumValues (addKV a s m) = s + sumValues m := by
  simp [sumValues, addKV, filter_eq_of_not_hasKey a m h]

theorem hasKey_addKV (x a s : Nat) (m : RefMap)
    (h : hasKey x (addKV a s m) = true) : x = a ∨ hasKey x m = true := by
  simp only [hasKey, addKV, List.any_cons] at h ⊢
  rcases Bool.or_eq_true_iff.mp h with h1 | h1
  · exact Or.inl (by have := h1; simp at this; omega)
  · right
    rcases List.any_eq_true.mp h1 with ⟨p, hp, he⟩
    exact List.any_eq_true.mpr ⟨p, List.mem_of_mem_filter hp, he⟩

theorem hasKey_of_lookupKV (x s : Nat) (m : RefMap)
    (h : lookupKV x m = some s) : hasKey x m = true := by
  induction m with
  | nil => simp [lookupKV] at h
  | cons p rest ih =>
      by_cases he : p.1 = x
      · simp [hasKey, he]
      · simp only [lookupKV, beq_iff_eq, he, if_false] at h
        have hr := ih h
        simp only [hasKey, List.any_cons] at hr ⊢
        simp [hr]

theorem lookupKV_filter_ne (x a : Nat) (m : RefMap) (h : a ≠ x) :
    lookupKV x (m.filter (fun p => p.1 != a)) = lookupKV x m := by
  induction m with
  | nil => rfl
  | cons p rest ih =>
      by_cases hp : p.1 = a
      · have : (p.1 != a) = false := by simp [hp]
        simp only [List.filter_cons, this, Bool.false_eq_true, if_false, ih]
        have : (p.1 == x) = false := by simp [hp, h]
        simp [lookupKV, this]
      · have : (p.1 != a) = true := by simp [hp]
        simp only [List.filter_cons, this, if_true]
        by_cases he : p.1 = x
        · simp [lookupKV, he]
        · simp [lookupKV, he, ih]

theorem lookupKV_addKV_ne (x a s : Nat) (m : RefMap) (h : a ≠ x) :
    lookupKV x (addKV a s m) = lookupKV x m := by
  have : (a == x) = false := by simp [h]
  simp [addKV, lookupKV, this, lookupKV_filter_ne x a m h]

/-! ### The visited-address table across a traversal -/

mutual
theorem mapNoFollow (f : SizeFlags) (hr : f.followRefs = false)
    (hc : f.followRc = false) :
    ∀ (v : RVal) (refs : RefMap), (memSizeRec f v refs).2 = refs
  | .prim _ _ _, refs => by simp [memSizeRec]
  | .strSlice _, refs => by simp [memSizeRec]
  | .strv _ _, refs => by simp [memSizeRec]
  | .vref a p, refs => by simp [memSizeRec, hr]
  | .boxed p, refs => by simp [memSizeRec, mapNoFollow f hr hc p refs]
  | .rcv a p, refs => by simp [memSizeRec, hc]
  | .optNone _, refs => by simp [memSizeRec]
  | .optSome _ x, refs => by simp [memSizeRec, mapNoFollow f hr hc x refs]
  | .tupv fs, refs => by simp [memSizeRec, extrasNoFollow f hr hc fs refs]
  | .enumv _ _ _ fs, refs => by simp [memSizeRec, extrasNoFollow f hr hc fs refs]
  | .vecv t es cap, refs => by
      by_cases hct : isCopy t <;>
        cases hcap : f.capacity <;>
          simp [memSizeRec, hct, hcap, sumsNoFollow f hr hc es refs]
  | .dequev t es cap, refs => by
      by_cases hct : isCopy t <;>
        cases hcap : f.capacity <;>
          simp [memSizeRec, hct, hcap, sumsNoFollow f hr hc es refs]
  | .arrv t es, refs => by
      by_cases hct : isCopy t <;>
        simp [memSizeRec, hct, elemExtrasNoFollow f hr hc t es refs]
  | .hashSetv t ks cap, refs => by
      by_cases hct : isCopy t <;>
        simp [memSizeRec, hct, sumsNoFollow f hr hc ks refs]
  | .btreeSetv t ks, refs => by
      by_cases hct : isCopy t <;>
        simp [memSizeRec, hct, elemExtrasNoFollow f hr hc t ks refs]
theorem extrasNoFollow (f : SizeFlags) (hr : f.followRefs = false)
    (hc : f.followRc = false) :
    ∀ (vs : RVals) (refs : RefMap), (extraSizes f vs refs).2 = refs
  | .nil, refs => by simp [extraSizes]
  | .cons v vs, refs => by
      simp [extraSizes, mapNoFollow f hr hc v refs, extrasNoFollow f hr hc vs refs]
theorem sumsNoFollow (f : SizeFlags) (hr : f.followRefs = false)
    (hc : f.followRc = false) :
    ∀ (vs : RVals) (refs : RefMap), (sumSizes f vs refs).2 = refs
  | .nil, refs => by simp [sumSizes]
  | .cons v vs, refs => by
      simp [sumSizes, mapNoFollow f hr hc v refs, sumsNoFollow f hr hc vs refs]
theorem elemExtrasNoFollow (f : SizeFlags) (hr : f.followRefs = false)
    (hc : f.followRc = false) :
    ∀ (t : RTy) (vs : RVals) (refs : RefMap), (elemExtraSizes f t vs refs).2 = refs
  | t, .nil, refs => by simp [elemExtraSizes]
  | t, .cons v vs, refs => by
      simp [elemExtraSizes, mapNoFollow f hr hc v refs, elemExtrasNoFollow f hr hc t vs refs]
end

mutual
theorem lookupPresv (f : SizeFlags) (x s : Nat) :
    ∀ (v : RVal) (refs : RefMap), lookupKV x refs = some s →
      lookupKV x (memSizeRec f v refs).2 = some s
  | .prim _ _ _, refs, h => by simpa [memSizeRec] using h
  | .strSlice _, refs, h => by simpa [memSizeRec] using h
  | .strv _ _, refs, h => by simpa [memSizeRec] using h
  | .vref a p, refs, h => by
      by_cases hf : f.followRefs
      · by_cases hk : hasKey a refs
        · simpa [memSizeRec, hf, hk] using h
        · have hp := lookupPresv f x s p refs h
          have hax : a ≠ x := by
            intro he
            rw [he] at hk
            exact hk (hasKey_of_lookupKV x s refs h)
          simp [memSizeRec, hf, hk, lookupKV_addKV_ne x a _ _ hax, hp]
      · simpa [memSizeRec, hf] using h
  | .boxed p, refs, h => by
      simpa [memSizeRec] using lookupPresv f x s p refs h
  | .rcv a p, refs, h => by
      by_cases hf : f.followRc
      · by_cases hk : hasKey a refs
        · simpa [memSizeRec, hf, hk] using h
        · have hp := lookupPresv f x s p refs h
          have hax : a ≠ x := by
            intro he
            rw [he] at hk
            exact hk (hasKey_of_lookupKV x s refs h)
          simp [memSizeRec, hf, hk, lookupKV_addKV_ne x a _ _ hax, hp]
      · simpa [memSizeRec, hf] using h
  | .optNone _, refs, h => by simpa [memSizeRec] using h
  | .optSome _ p, refs, h => by
      simpa [memSizeRec] using lookupPresv f x s p refs h
  | .tupv fs, refs, h => by
      simpa [memSizeRec] using lookupPresvExtras f x s fs refs h
  | .enumv _ _ _ fs, refs, h => by
      simpa [memSizeRec] using lookupPresvExtras f x s fs refs h
  | .vecv t es cap, refs, h => by
      by_cases hct : isCopy t
      · simpa [memSizeRec, hct] using h
      · have := lookupPresvSums f x s es refs h
        cases hcap : f.capacity <;> simpa [memSizeRec, hct, hcap] using this
  | .dequev t es cap, refs, h => by
      by_cases hct : isCopy t
      · simpa [memSizeRec, hct] using h
      · have := lookupPresvSums f x s es refs h
        cases hcap : f.capacity <;> simpa [memSizeRec, hct, hcap] using this
  | .arrv t es, refs, h => by
      by_cases hct : isCopy t
      · simpa [memSizeRec, hct] using h
      · simpa [memSizeRec, hct] using lookupPresvElems f x s t es refs h
  | .hashSetv t ks cap, refs, h => by
      by_cases hct : isCopy t
      · simpa [memSizeRec, hct] using h
      · simpa [memSizeRec, hct] using lookupPresvSums f x s ks refs h
  | .btreeSetv t ks, refs, h => by
      by_cases hct : isCopy t
      · simpa [memSizeRec, hct] using h
      · simpa [memSizeRec, hct] using lookupPresvElems f x s t ks refs h
theorem lookupPresvExtras (f : SizeFlags) (x s : Nat) :
    ∀ (vs : RVals) (refs : RefMap), lookupKV x refs = some s →
      lookupKV x (extraSizes f vs refs).2 = some s
  | .nil, refs, h => by simpa [extraSizes] using h
  | .cons v vs, refs, h => by
      simpa [extraSizes] using
        lookupPresvExtras f x s vs _ (lookupPresv f x s v refs h)
theorem lookupPresvSums (f : SizeFlags) (x s : Nat) :
    ∀ (vs : RVals) (refs : RefMap), lookupKV x refs = some s →
      lookupKV x (sumSizes f vs refs).2 = some s
  | .nil, refs, h => by simpa [sumSizes] using h
  | .cons v vs, refs, h => by
      simpa [sumSizes] using
        lookupPresvSums f x s vs _ (lookupPresv f x s v refs h)
theorem lookupPresvElems (f : SizeFlags) (x s : Nat) :
    ∀ (t : RTy) (vs : RVals) (refs : RefMap), lookupKV x refs = some s →
      lookupKV x (elemExtraSizes f t vs refs).2 = some s
  | t, .nil, refs, h => by simpa [elemExtraSizes] using h
  | t, .cons v vs, refs, h => by
      simpa [elemExtraSizes] using
        lookupPresvElems f x s t vs _ (lookupPresv f x s v refs h)
end

mutual
theorem keysSub (f : SizeFlags) (x : Nat) :
    ∀ (v : RVal) (refs : RefMap), hasKey x (memSizeRec f v refs).2 = true →
      hasKey x refs = true ∨ refMentions x v = true
  | .prim _ _ _, refs, h => by simpa [memSizeRec] using Or.inl h
  | .strSlice _, refs, h => by simp [memSizeRec] at h; exact Or.inl h
  | .strv _ _, refs, h => by simp [memSizeRec] at h; exact Or.inl h
  | .vref a p, refs, h => by
      by_cases hf : f.followRefs
      · by_cases hk : hasKey a refs
        · simp [memSizeRec, hf, hk] at h
          exact Or.inl h
        · simp only [memSizeRec, hf, hk, if_true, if_false, Bool.false_eq_true] at h
          rcases hasKey_addKV x a _ _ h with he | hm
          · exact Or.inr (by simp [refMentions, he])
          · rcases keysSub f x p refs hm with h1 | h1
            · exact Or.inl h1
            · exact Or.inr (by simp [refMentions, h1])
      · simp [memSizeRec, hf] at h
        exact Or.inl h
  | .boxed p, refs, h => by
      simp only [memSizeRec] at h
      rcases keysSub f x p refs h with h1 | h1
      · exact Or.inl h1
      · exact Or.inr (by simp [refMentions, h1])
  | .rcv a p, refs, h => by
      by_cases hf : f.followRc
      · by_cases hk : hasKey a refs
        · simp [memSizeRec, hf, hk] at h
          exact Or.inl h
        · simp only [memSizeRec, hf, hk, if_true, if_false, Bool.false_eq_true] at h
          rcases hasKey_addKV x a _ _ h with he | hm
          · exact Or.inr (by simp [refMentions, he])
          · rcases keysSub f x p refs hm with h1 | h1
            · exact Or.inl h1
            · exact Or.inr (by simp [refMentions, h1])
      · simp [memSizeRec, hf] at h
        exact Or.inl h
  | .optNone _, refs, h => by simp [memSizeRec] at h; exact Or.inl h
  | .optSome _ p, refs, h => by
      simp only [memSizeRec] at h
      rcases keysSub f x p refs h with h1 | h1
      · exact Or.inl h1
      · exact Or.inr (by simp [refMentions, h1])
  | .tupv fs, refs, h => by
      simp only [memSizeRec] at h
      rcases keysSubExtras f x fs refs h with h1 | h1
      · exact Or.inl h1
      · exact Or.inr (by simp [refMentions, h1])
  | .enumv _ _ _ fs, refs, h => by
      simp only [memSizeRec] at h
      rcases keysSubExtras f x fs refs h with h1 | h1
      · exact Or.inl h1
      · exact Or.inr (by simp [refMentions, h1])
  | .vecv t es cap, refs, h => by
      by_cases hct : isCopy t
      · simp [memSizeRec, hct] at h
        exact Or.inl h
      · rw [memSizeRec] at h
        simp only [hct, Bool.false_eq_true, if_false] at h
        have h2 : hasKey x (sumSizes f es refs).2 = true := by
          cases hcap : f.capacity <;> simpa [hcap] using h
        rcases keysSubSums f x es refs h2 with h1 | h1
        · exact Or.inl h1
        · exact Or.inr (by simp [refMentions, h1])
  | .dequev t es cap, refs, h => by
      by_cases hct : isCopy t
      · simp [memSizeRec, hct] at h
        exact Or.inl h
      · rw [memSizeRec] at h
        simp only [hct, Bool.false_eq_true, if_false] at h
        have h2 : hasKey x (sumSizes f es refs).2 = true := by
          cases hcap : f.capacity <;> simpa [hcap] using h
        rcases keysSubSums f x es refs h2 with h1 | h1
        · exact Or.inl h1
        · exact Or.inr (by simp [refMentions, h1])
  | .arrv t es, refs, h => by
      by_cases hct : isCopy t
      · simp [memSizeRec, hct] at h
        exact Or.inl h
      · simp only [memSizeRec, hct, Bool.false_eq_true, if_false] at h
        rcases keysSubElems f x t es refs h with h1 | h1
        · exact Or.inl h1
        · exact Or.inr (by simp [refMentions, h1])
  | .hashSetv t ks cap, refs, h => by
      by_cases hct : isCopy t
      · simp [memSizeRec, hct] at h
        exact Or.inl h
      · simp only [memSizeRec, hct, Bool.false_eq_true, if_false] at h
        rcases keysSubSums f x ks refs h with h1 | h1
        · exact Or.inl h1
        · exact Or.inr (by simp [refMentions, h1])
  | .btreeSetv t ks, refs, h => by
      by_cases hct : isCopy t
      · simp [memSizeRec, hct] at h
        exact Or.inl h
      · simp only [memSizeRec, hct, Bool.false_eq_true, if_false] at h
        rcases keysSubElems f x t ks refs h with h1 | h1
        · exact Or.inl h1
        · exact Or.inr (by simp [refMentions, h1])
theorem keysSubExtras (f : SizeFlags) (x : Nat) :
    ∀ (vs : RVals) (refs : RefMap), hasKey x (extraSizes f vs refs).2 = true →
      hasKey x refs = true ∨ refMentionsList x vs = true
  | .nil, refs, h => by simpa [extraSizes] using Or.inl h
  | .cons v vs, refs, h => by
      simp only [extraSizes] at h
      rcases keysSubExtras f x vs _ h with h1 | h1
      · rcases keysSub f x v refs h1 with h2 | h2
        · exact Or.inl h2
        · exact Or.inr (by simp [refMentionsList, h2])
      · exact Or.inr (by simp [refMentionsList, h1])
theorem keysSubSums (f : SizeFlags) (x : Nat) :
    ∀ (vs : RVals) (refs : RefMap), hasKey x (sumSizes f vs refs).2 = true →
      hasKey x refs = true ∨ refMentionsList x vs = true
  | .nil, refs, h => by simpa [sumSizes] using Or.inl h
  | .cons v vs, refs, h => by
      simp only [sumSizes] at h
      rcases keysSubSums f x vs _ h with h1 | h1
      · rcases keysSub f x v refs h1 with h2 | h2
        · exact Or.inl h2
        · exact Or.inr (by simp [refMentionsList, h2])
      · exact Or.inr (by simp [refMentionsList, h1])
theorem keysSubElems (f : SizeFlags) (x : Nat) :
    ∀ (t : RTy) (vs : RVals) (refs : RefMap),
      hasKey x (elemExtraSizes f t vs refs).2 = true →
      hasKey x refs = true ∨ refMentionsList x vs = true
  | t, .nil, refs, h => by simpa [elemExtraSizes] using Or.inl h
  | t, .cons v vs, refs, h => by
      simp only [elemExtraSizes] at h
      rcases keysSubElems f x t vs _ h with h1 | h1
      · rcases keysSub f x v refs h1 with h2 | h2
        · exact Or.inl h2
        · exact Or.inr (by simp [refMentionsList, h2])
      · exact Or.inr (by simp [refMentionsList, h1])
end

theorem le_nextPow2 (n : Nat) : n ≤ nextPow2 n :=
  Nat.le_pow_clog (by norm_num) n

theorem nextPow2_mono {a b : Nat} (h : a ≤ b) : nextPow2 a ≤ nextPow2 b :=
  Nat.pow_le_pow_right (by norm_num) (Nat.clog_mono_right 2 h)

theorem nextPow2_le_pow {n k : Nat} (h : n ≤ 2 ^ k) : nextPow2 n ≤ 2 ^ k :=
  Nat.pow_le_pow_right (by norm_num) ((Nat.le_pow_iff_clog_le (by norm_num)).mp h)

/-- The bucket count computed by the engine (`usize::MAX` on overflow) is
monotone in the capacity. -/
theorem bucketsCount_mono {c c' : Nat} (h : c ≤ c') :
    (capacityToBuckets c).getD usizeMax ≤ (capacityToBuckets c').getD usizeMax := by
  unfold capacityToBuckets
  by_cases h0 : c = 0
  · subst h0
    simp only [if_true]
    exact Nat.zero_le _
  · by_cases h0' : c' = 0
    · omega
    · by_cases h8 : c < 8
      · by_cases h8' : c' < 8
        · simp only [h0, h0', h8, h8', if_true, if_false]
          split_ifs <;> first
            | omega
            | simp_all
        · have hlow : (if c < 4 then 4 else 8) ≤ 8 := by split_ifs <;> omega
          by_cases hov : usizeMax < c' * 8
          · simp only [h0, h0', h8, h8', hov, if_true, if_false]
            have : (8 : Nat) ≤ usizeMax := by norm_num [usizeMax]
            simp only [Option.getD_none, Option.getD_some]
            omega
          · simp only [h0, h0', h8, h8', hov, if_true, if_false]
            have h9 : 9 ≤ c' * 8 / 7 := by
              have : 64 ≤ c' * 8 := by omega
              omega
            have := le_nextPow2 (c' * 8 / 7)
            simp only [Option.getD_some]
            omega
      · have h8' : ¬ c' < 8 := by omega
        by_cases hov : usizeMax < c * 8
        · have hov' : usizeMax < c' * 8 := by
            have : c * 8 ≤ c' * 8 := by omega
            omega
          simp [h0, h0', h8, h8', hov, hov']
        · by_cases hov' : usizeMax < c' * 8
          · simp only [h0, h0', h8, h8', hov, hov', if_true, if_false]
            have hb : c * 8 / 7 ≤ 2 ^ 62 := by
              have h1 : c * 8 ≤ usizeMax := by omega
              have h2 : usizeMax / 7 ≤ 2 ^ 62 := by norm_num [usizeMax]
              have := Nat.div_le_div_right (c := 7) h1
              omega
            have := nextPow2_le_pow hb
            have h3 : (2 : Nat) ^ 62 ≤ usizeMax := by norm_num [usizeMax]
            simp only [Option.getD_none, Option.getD_some]
            omega
          · simp only [h0, h0', h8, h8', hov, hov', if_true, if_false]
            simp only [Option.getD_some]
            exact nextPow2_mono (Nat.div_le_div_right (by omega))

/-- `estimate_btree_size` is monotone in the accumulated item heap size. -/
theorem estimateBtree_mono (kSz kAl vSz vAl len : Nat) {i i' : Nat}
    (h : i ≤ i') :
    estimateBtreeSize kSz kAl vSz vAl len i ≤
      estimateBtreeSize kSz kAl vSz vAl len i' := by
  simp only [estimateBtreeSize]
  split_ifs <;> omega

/-- `fix_set_for_capacity` in length mode is bounded by capacity mode, for
a length below the capacity and a smaller contents size. -/
theorem fixSet_le (t : RTy) (len cap c c' : Nat) (hlen : len ≤ cap)
    (hc : c ≤ c') :
    fixSetForCapacity ⟨false, false, false⟩ t len cap c ≤
      fixSetForCapacity ⟨false, true, false⟩ t len cap c' := by
  unfold fixSetForCapacity
  simp only [if_true, if_false, Bool.false_eq_true]
  have hb := bucketsCount_mono hlen
  have hmul : ((capacityToBuckets len).getD usizeMax - len) * sizeOf' t ≤
      ((capacityToBuckets cap).getD usizeMax - len) * sizeOf' t :=
    Nat.mul_le_mul_right _ (by omega)
  have hind : (if 0 < (capacityToBuckets len).getD usizeMax then groupWidth else 0) ≤
      (if 0 < (capacityToBuckets cap).getD usizeMax then groupWidth else 0) := by
    split_ifs <;> omega
  omega

mutual
theorem capMonoV : ∀ (v : RVal) (refs : RefMap), capOk v = true →
    (memSizeRec ⟨false, false, false⟩ v refs).1 ≤
      (memSizeRec ⟨false, true, false⟩ v refs).1
  | .prim _ _ _, refs, _ => by simp [memSizeRec]
  | .strSlice _, refs, _ => by simp [memSizeRec]
  | .strv len cap, refs, h => by
      simp only [capOk, decide_eq_true_eq] at h
      simp [memSizeRec]
      omega
  | .vref a p, refs, _ => by simp [memSizeRec]
  | .boxed p, refs, h => by
      have ih := capMonoV p refs (by simpa [capOk] using h)
      simp only [memSizeRec]
      omega
  | .rcv a p, refs, _ => by simp [memSizeRec]
  | .optNone _, refs, _ => by simp [memSizeRec]
  | .optSome _ x, refs, h => by
      have ih := capMonoV x refs (by simpa [capOk] using h)
      simp only [memSizeRec]
      omega
  | .tupv fs, refs, h => by
      have ih := capMonoExtras fs refs (by simpa [capOk] using h)
      simp only [memSizeRec]
      omega
  | .enumv _ _ _ fs, refs, h => by
      have ih := capMonoExtras fs refs (by simpa [capOk] using h)
      simp only [memSizeRec]
      omega
  | .vecv t es cap, refs, h => by
      simp only [capOk, Bool.and_eq_true, decide_eq_true_eq] at h
      by_cases hct : isCopy t
      · have := Nat.mul_le_mul_right (sizeOf' t) h.1
        simp [memSizeRec, hct]
        omega
      · have ih := capMonoSums es refs h.2
        simp [memSizeRec, hct]
        omega
  | .dequev t es cap, refs, h => by
      simp only [capOk, Bool.and_eq_true, decide_eq_true_eq] at h
      by_cases hct : isCopy t
      · have := Nat.mul_le_mul_right (sizeOf' t) h.1
        simp [memSizeRec, hct]
        omega
      · have ih := capMonoSums es refs h.2
        simp [memSizeRec, hct]
        omega
  | .arrv t es, refs, h => by
      by_cases hct : isCopy t
      · simp [memSizeRec, hct]
      · have ih := capMonoElems t es refs (by simpa [capOk] using h)
        simp [memSizeRec, hct]
        omega
  | .hashSetv t ks cap, refs, h => by
      simp only [capOk, Bool.and_eq_true, decide_eq_true_eq] at h
      by_cases hct : isCopy t
      · have := fixSet_le t (rvalsLen ks) cap (sizeOf' t * rvalsLen ks)
          (sizeOf' t * rvalsLen ks) h.1 (le_refl _)
        simpa [memSizeRec, hct] using this
      · have ih := capMonoSums ks refs h.2
        have := fixSet_le t (rvalsLen ks) cap
          (sumSizes ⟨false, false, false⟩ ks refs).1
          (sumSizes ⟨false, true, false⟩ ks refs).1 h.1 ih
        simpa [memSizeRec, hct] using this
  | .btreeSetv t ks, refs, h => by
      by_cases hct : isCopy t
      · simp [memSizeRec, hct]
      · have ih := capMonoElems t ks refs (by simpa [capOk] using h)
        have := estimateBtree_mono (sizeOf' t) (alignOf t) 0 1 (rvalsLen ks) ih
        simp only [memSizeRec, hct, Bool.false_eq_true, if_false]
        omega
theorem capMonoExtras : ∀ (vs : RVals) (refs : RefMap), capOkList vs = true →
    (extraSizes ⟨false, false, false⟩ vs refs).1 ≤
      (extraSizes ⟨false, true, false⟩ vs refs).1
  | .nil, refs, _ => by simp [extraSizes]
  | .cons v vs, refs, h => by
      simp only [capOkList, Bool.and_eq_true] at h
      have ih1 := capMonoV v refs h.1
      have ih2 := capMonoExtras vs refs h.2
      have e0 := mapNoFollow ⟨false, false, false⟩ rfl rfl v refs
      have e1 := mapNoFollow ⟨false, true, false⟩ rfl rfl v refs
      simp only [extraSizes, e0, e1]
      have := Nat.sub_le_sub_right ih1 (sizeOfVal v)
      omega
theorem capMonoSums : ∀ (vs : RVals) (refs : RefMap), capOkList vs = true →
    (sumSizes ⟨false, false, false⟩ vs refs).1 ≤
      (sumSizes ⟨false, true, false⟩ vs refs).1
  | .nil, refs, _ => by simp [sumSizes]
  | .cons v vs, refs, h => by
      simp only [capOkList, Bool.and_eq_true] at h
      have ih1 := capMonoV v refs h.1
      have ih2 := capMonoSums vs refs h.2
      have e0 := mapNoFollow ⟨false, false, false⟩ rfl rfl v refs
      have e1 := mapNoFollow ⟨false, true, false⟩ rfl rfl v refs
      simp only [sumSizes, e0, e1]
      omega
theorem capMonoElems : ∀ (t : RTy) (vs : RVals) (refs : RefMap),
    capOkList vs = true →
    (elemExtraSizes ⟨false, false, false⟩ t vs refs).1 ≤
      (elemExtraSizes ⟨false, true, false⟩ t vs refs).1
  | t, .nil, refs, _ => by simp [elemExtraSizes]
  | t, .cons v vs, refs, h => by
      simp only [capOkList, Bool.and_eq_true] at h
      have ih1 := capMonoV v refs h.1
      have ih2 := capMonoElems t vs refs h.2
      have e0 := mapNoFollow ⟨false, false, false⟩ rfl rfl v refs
      have e1 := mapNoFollow ⟨false, true, false⟩ rfl rfl v refs
      simp only [elemExtraSizes, e0, e1]
      have := Nat.sub_le_sub_right ih1 (sizeOf' t)
      omega
end

mutual
theorem fullEqV : ∀ (v : RVal) (refs : RefMap), fullCap v = true →
    (memSizeRec ⟨false, false, false⟩ v refs).1 =
      (memSizeRec ⟨false, true, false⟩ v refs).1
  | .prim _ _ _, refs, _ => by simp [memSizeRec]
  | .strSlice _, refs, _ => by simp [memSizeRec]
  | .strv len cap, refs, h => by
      simp only [fullCap, beq_iff_eq] at h
      simp [memSizeRec, h]
  | .vref a p, refs, _ => by simp [memSizeRec]
  | .boxed p, refs, h => by
      have ih := fullEqV p refs (by simpa [fullCap] using h)
      simp only [memSizeRec]
      omega
  | .rcv a p, refs, _ => by simp [memSizeRec]
  | .optNone _, refs, _ => by simp [memSizeRec]
  | .optSome _ x, refs, h => by
      have ih := fullEqV x refs (by simpa [fullCap] using h)
      simp only [memSizeRec]
      omega
  | .tupv fs, refs, h => by
      have ih := fullEqExtras fs refs (by simpa [fullCap] using h)
      simp only [memSizeRec]
      omega
  | .enumv _ _ _ fs, refs, h => by
      have ih := fullEqExtras fs refs (by simpa [fullCap] using h)
      simp only [memSizeRec]
      omega
  | .vecv t es cap, refs, h => by
      simp only [fullCap, Bool.and_eq_true, beq_iff_eq] at h
      by_cases hct : isCopy t
      · simp [memSizeRec, hct, h.1]
      · have ih := fullEqSums es refs h.2
        simp [memSizeRec, hct, h.1]
        omega
  | .dequev t es cap, refs, h => by
      simp only [fullCap, Bool.and_eq_true, beq_iff_eq] at h
      by_cases hct : isCopy t
      · simp [memSizeRec, hct, h.1]
      · have ih := fullEqSums es refs h.2
        simp [memSizeRec, hct, h.1]
        omega
  | .arrv t es, refs, h => by
      by_cases hct : isCopy t
      · simp [memSizeRec, hct]
      · have ih := fullEqElems t es refs (by simpa [fullCap] using h)
        simp [memSizeRec, hct]
        omega
  | .hashSetv t ks cap, refs, h => by
      simp only [fullCap, Bool.and_eq_true, beq_iff_eq] at h
      by_cases hct : isCopy t
      · simp [memSizeRec, hct, fixSetForCapacity, h.1]
      · have ih := fullEqSums ks refs h.2
        simp [memSizeRec, hct, fixSetForCapacity, h.1]
        omega
  | .btreeSetv t ks, refs, h => by
      by_cases hct : isCopy t
      · simp [memSizeRec, hct]
      · have ih := fullEqElems t ks refs (by simpa [fullCap] using h)
        simp [memSizeRec, hct, ih]
theorem fullEqExtras : ∀ (vs : RVals) (refs : RefMap), fullCapList vs = true →
    (extraSizes ⟨false, false, false⟩ vs refs).1 =
      (extraSizes ⟨false, true, false⟩ vs refs).1
  | .nil, refs, _ => by simp [extraSizes]
  | .cons v vs, refs, h => by
      simp only [fullCapList, Bool.and_eq_true] at h
      have ih1 := fullEqV v refs h.1
      have ih2 := fullEqExtras vs refs h.2
      have e0 := mapNoFollow ⟨false, false, false⟩ rfl rfl v refs
      have e1 := mapNoFollow ⟨false, true, false⟩ rfl rfl v refs
      simp only [extraSizes, e0, e1]
      omega
theorem fullEqSums : ∀ (vs : RVals) (refs : RefMap), fullCapList vs = true →
    (sumSizes ⟨false, false, false⟩ vs refs).1 =
      (sumSizes ⟨false, true, false⟩ vs refs).1
  | .nil, refs, _ => by simp [sumSizes]
  | .cons v vs, refs, h => by
      simp only [fullCapList, Bool.and_eq_true] at h
      have ih1 := fullEqV v refs h.1
      have ih2 := fullEqSums vs refs h.2
      have e0 := mapNoFollow ⟨false, false, false⟩ rfl rfl v refs
      have e1 := mapNoFollow ⟨false, true, false⟩ rfl rfl v refs
      simp only [sumSizes, e0, e1]
      omega
theorem fullEqElems : ∀ (t : RTy) (vs : RVals) (refs : RefMap),
    fullCapList vs = true →
    (elemExtraSizes ⟨false, false, false⟩ t vs refs).1 =
      (elemExtraSizes ⟨false, true, false⟩ t vs refs).1
  | t, .nil, refs, _ => by simp [elemExtraSizes]
  | t, .cons v vs, refs, h => by
      simp only [fullCapList, Bool.and_eq_true] at h
      have ih1 := fullEqV v refs h.1
      have ih2 := fullEqElems t vs refs h.2
      have e0 := mapNoFollow ⟨false, false, false⟩ rfl rfl v refs
      have e1 := mapNoFollow ⟨false, true, false⟩ rfl rfl v refs
      simp only [elemExtraSizes, e0, e1]
      omega
end

/-! ### Renderer lemmas -/

/-- The variant header lines that `_mem_dbg_rec_on` still emits when every
child node is pruned by the depth limit: enums (also reached through a
chain of boxes) emit exactly their variant line, all other values emit
nothing. -/
def variantTail (fl : DbgFlags) (total : Nat) (pfx : List Bool) : RVal → List OutLine
  | .boxed p => variantTail fl total pfx p
  | .enumv _ _ nm fs => [.variant ⟨enumWidth fl total + 3, pfx.drop 1, rvalsEmpty fs, nm⟩]
  | _ => []

theorem fieldsSkipAll (sink : Nat → Bool) (fl : DbgFlags) (total maxD : Nat)
    (pfx : List Bool) (h : pfxByteLen pfx > maxD) :
    ∀ (vs : RVals) (pads : List Nat) (i n widx : Nat),
      renderFields sink fl total maxD pfx vs pads i n widx = ⟨[], widx, none⟩
  | .nil, pads, i, n, widx => by simp [renderFields]
  | .cons v vs, pads, i, n, widx => by
      rw [renderFields, memDbgDepthOn]
      simp only [h, if_true]
      rw [fieldsSkipAll sink fl total maxD pfx h vs pads.tail (i + 1) n widx]
      simp

theorem recOnPruned (sink : Nat → Bool) (fl : DbgFlags) (total maxD : Nat)
    (hs : ∀ n, sink n = true) (hrl : fl.rustLayout = false)
    (pfx : List Bool) (h : pfxByteLen pfx > maxD) :
    ∀ (v : RVal) (widx : Nat),
      memDbgRecOn sink fl total maxD v pfx widx =
        ⟨variantTail fl total pfx v,
         widx + (variantTail fl total pfx v).length, none⟩
  | .prim _ _ _, widx => by simp [memDbgRecOn, variantTail]
  | .strSlice _, widx => by simp [memDbgRecOn, variantTail]
  | .strv _ _, widx => by simp [memDbgRecOn, variantTail]
  | .vref _ _, widx => by simp [memDbgRecOn, variantTail]
  | .boxed p, widx => by
      rw [memDbgRecOn]
      simpa [variantTail] using recOnPruned sink fl total maxD hs hrl pfx h p widx
  | .rcv _ _, widx => by simp [memDbgRecOn, variantTail]
  | .optNone _, widx => by simp [memDbgRecOn, variantTail]
  | .optSome _ _, widx => by simp [memDbgRecOn, variantTail]
  | .tupv fs, widx => by
      rw [memDbgRecOn]
      simp [fieldsSkipAll sink fl total maxD pfx h fs _ 0 (rvalsLen fs) widx, variantTail]
  | .enumv _ _ nm fs, widx => by
      rw [memDbgRecOn]
      simp only [hs widx, if_true, hrl, Bool.false_eq_true, if_false]
      simp [fieldsSkipAll sink fl total maxD pfx h fs _ 0 (rvalsLen fs) (widx + 1), variantTail]
  | .vecv _ _ _, widx => by simp [memDbgRecOn, variantTail]
  | .dequev _ _ _, widx => by simp [memDbgRecOn, variantTail]
  | .arrv _ _, widx => by simp [memDbgRecOn, variantTail]
  | .hashSetv _ _ _, widx => by simp [memDbgRecOn, variantTail]
  | .btreeSetv _ _, widx => by simp [memDbgRecOn, variantTail]

mutual
theorem depthOnErrNone (sink : Nat → Bool) (fl : DbgFlags) (total maxD : Nat)
    (hs : ∀ n, sink n = true) (hrl : fl.rustLayout = false) :
    ∀ (v : RVal) (pfx : List Bool) (nm : Option String) (isLast : Bool)
      (padded widx : Nat),
      (memDbgDepthOn sink fl total maxD v pfx nm isLast padded widx).err = none
  | v, pfx, nm, isLast, padded, widx => by
    rw [memDbgDepthOn]
    split
    · rfl
    · rw [hs widx]
      simp only [if_true]
      exact recOnErrNone sink fl total maxD hs hrl v (pfx ++ [isLast]) (widx + 1)
theorem recOnErrNone (sink : Nat → Bool) (fl : DbgFlags) (total maxD : Nat)
    (hs : ∀ n, sink n = true) (hrl : fl.rustLayout = false) :
    ∀ (v : RVal) (pfx : List Bool) (widx : Nat),
      (memDbgRecOn sink fl total maxD v pfx widx).err = none
  | .boxed p, pfx, widx => by
      rw [memDbgRecOn]
      exact recOnErrNone sink fl total maxD hs hrl p pfx widx
  | .tupv fs, pfx, widx => by
      rw [memDbgRecOn]
      exact fieldsErrNone sink fl total maxD hs hrl fs _ 0 (rvalsLen fs) pfx widx
  | .enumv _ _ nm fs, pfx, widx => by
      rw [memDbgRecOn]
      rw [hs widx]
      simp only [if_true, hrl, Bool.false_eq_true, if_false]
      exact fieldsErrNone sink fl total maxD hs hrl fs _ 0 (rvalsLen fs) pfx (widx + 1)
  | .prim _ _ _, pfx, widx => by simp [memDbgRecOn]
  | .strSlice _, pfx, widx => by simp [memDbgRecOn]
  | .strv _ _, pfx, widx => by simp [memDbgRecOn]
  | .vref _ _, pfx, widx => by simp [memDbgRecOn]
  | .rcv _ _, pfx, widx => by simp [memDbgRecOn]
  | .optNone _, pfx, widx => by simp [memDbgRecOn]
  | .optSome _ _, pfx, widx => by simp [memDbgRecOn]
  | .vecv _ _ _, pfx, widx => by simp [memDbgRecOn]
  | .dequev _ _ _, pfx, widx => by simp [memDbgRecOn]
  | .arrv _ _, pfx, widx => by simp [memDbgRecOn]
  | .hashSetv _ _ _, pfx, widx => by simp [memDbgRecOn]
  | .btreeSetv _ _, pfx, widx => by simp [memDbgRecOn]
theorem fieldsErrNone (sink : Nat → Bool) (fl : DbgFlags) (total maxD : Nat)
    (hs : ∀ n, sink n = true) (hrl : fl.rustLayout = false) :
    ∀ (vs : RVals) (pads : List Nat) (i n : Nat) (pfx : List Bool) (widx : Nat),
      (renderFields sink fl total maxD pfx vs pads i n widx).err = none
  | .nil, pads, i, n, pfx, widx => by simp [renderFields]
  | .cons v vs, pads, i, n, pfx, widx => by
      rw [renderFields]
      have h1 := depthOnErrNone sink fl total maxD hs hrl v pfx (some (toString i))
        (i + 1 == n) (pads.headD 0) widx
      split
      · next e heq => rw [heq] at h1; exact absurd h1 (by simp)
      · exact fieldsErrNone sink fl total maxD hs hrl vs pads.tail (i + 1) n pfx _
end

mutual
theorem depthOnNoWF (sink : Nat → Bool) (fl : DbgFlags) (total maxD : Nat)
    (hs : ∀ n, sink n = true) :
    ∀ (v : RVal) (pfx : List Bool) (nm : Option String) (isLast : Bool)
      (padded widx : Nat),
      (memDbgDepthOn sink fl total maxD v pfx nm isLast padded widx).err ≠
        some RErr.writeFailed
  | v, pfx, nm, isLast, padded, widx => by
    rw [memDbgDepthOn]
    split
    · simp
    · rw [hs widx]
      simp only [if_true]
      exact recOnNoWF sink fl total maxD hs v (pfx ++ [isLast]) (widx + 1)
theorem recOnNoWF (sink : Nat → Bool) (fl : DbgFlags) (total maxD : Nat)
    (hs : ∀ n, sink n = true) :
    ∀ (v : RVal) (pfx : List Bool) (widx : Nat),
      (memDbgRecOn sink fl total maxD v pfx widx).err ≠ some RErr.writeFailed
  | .boxed p, pfx, widx => by
      rw [memDbgRecOn]
      exact recOnNoWF sink fl total maxD hs p pfx widx
  | .tupv fs, pfx, widx => by
      rw [memDbgRecOn]
      exact fieldsNoWF sink fl total maxD hs fs _ 0 (rvalsLen fs) pfx widx
  | .enumv _ _ nm fs, pfx, widx => by
      rw [memDbgRecOn]
      rw [hs widx]
      simp only [if_true]
      split
      · simp
      · exact fieldsNoWF sink fl total maxD hs fs _ 0 (rvalsLen fs) pfx (widx + 1)
  | .prim _ _ _, pfx, widx => by simp [memDbgRecOn]
  | .strSlice _, pfx, widx => by simp [memDbgRecOn]
  | .strv _ _, pfx, widx => by simp [memDbgRecOn]
  | .vref _ _, pfx, widx => by simp [memDbgRecOn]
  | .rcv _ _, pfx, widx => by simp [memDbgRecOn]
  | .optNone _, pfx, widx => by simp [memDbgRecOn]
  | .optSome _ _, pfx, widx => by simp [memDbgRecOn]
  | .vecv _ _ _, pfx, widx => by simp [memDbgRecOn]
  | .dequev _ _ _, pfx, widx => by simp [memDbgRecOn]
  | .arrv _ _, pfx, widx => by simp [memDbgRecOn]
  | .hashSetv _ _ _, pfx, widx => by simp [memDbgRecOn]
  | .btreeSetv _ _, pfx, widx => by simp [memDbgRecOn]
theorem fieldsNoWF (sink : Nat → Bool) (fl : DbgFlags) (total maxD : Nat)
    (hs : ∀ n, sink n = true) :
    ∀ (vs : RVals) (pads : List Nat) (i n : Nat) (pfx : List Bool) (widx : Nat),
      (renderFields sink fl total maxD pfx vs pads i n widx).err ≠
        some RErr.writeFailed
  | .nil, pads, i, n, pfx, widx => by simp [renderFields]
  | .cons v vs, pads, i, n, pfx, widx => by
      rw [renderFields]
      have h1 := depthOnNoWF sink fl total maxD hs v pfx (some (toString i))
        (i + 1 == n) (pads.headD 0) widx
      split
      · next e heq =>
          rw [heq] at h1
          simpa using h1
      · exact fieldsNoWF sink fl total maxD hs vs pads.tail (i + 1) n pfx _
end

/-- Whether a rendered line reports exactly 100 percent (variant header
lines carry no percentage field). -/
def pctHundred : OutLine → Bool
  | .node l => l.pct == some (100 : ℚ)
  | .variant _ => true

mutual
theorem depthOnPct (sink : Nat → Bool) (fl : DbgFlags) (maxD : Nat)
    (hp : fl.percentage = true) :
    ∀ (v : RVal) (pfx : List Bool) (nm : Option String) (isLast : Bool)
      (padded widx : Nat) (l : OutLine),
      l ∈ (memDbgDepthOn sink fl 0 maxD v pfx nm isLast padded widx).lines →
        pctHundred l = true
  | v, pfx, nm, isLast, padded, widx, l => by
    rw [memDbgDepthOn]
    split
    · simp
    · split
      · intro hl
        simp only [List.mem_cons] at hl
        rcases hl with hl | hl
        · subst hl
          simp [pctHundred, hp]
        · exact recOnPct sink fl maxD hp v (pfx ++ [isLast]) (widx + 1) l hl
      · simp
theorem recOnPct (sink : Nat → Bool) (fl : DbgFlags) (maxD : Nat)
    (hp : fl.percentage = true) :
    ∀ (v : RVal) (pfx : List Bool) (widx : Nat) (l : OutLine),
      l ∈ (memDbgRecOn sink fl 0 maxD v pfx widx).lines → pctHundred l = true
  | .boxed p, pfx, widx, l => by
      rw [memDbgRecOn]
      exact recOnPct sink fl maxD hp p pfx widx l
  | .tupv fs, pfx, widx, l => by
      rw [memDbgRecOn]
      exact fieldsPct sink fl maxD hp fs _ 0 (rvalsLen fs) pfx widx l
  | .enumv _ _ nm fs, pfx, widx, l => by
      rw [memDbgRecOn]
      split
      · split
        · intro hl
          simp only [List.mem_singleton] at hl
          subst hl
          simp [pctHundred]
        · intro hl
          simp only [List.mem_cons] at hl
          rcases hl with hl | hl
          · subst hl
            simp [pctHundred]
          · exact fieldsPct sink fl maxD hp fs _ 0 (rvalsLen fs) pfx (widx + 1) l hl
      · simp
  | .prim _ _ _, pfx, widx, l => by simp [memDbgRecOn]
  | .strSlice _, pfx, widx, l => by simp [memDbgRecOn]
  | .strv _ _, pfx, widx, l => by simp [memDbgRecOn]
  | .vref _ _, pfx, widx, l => by simp [memDbgRecOn]
  | .rcv _ _, pfx, widx, l => by simp [memDbgRecOn]
  | .optNone _, pfx, widx, l => by simp [memDbgRecOn]
  | .optSome _ _, pfx, widx, l => by simp [memDbgRecOn]
  | .vecv _ _ _, pfx, widx, l => by simp [memDbgRecOn]
  | .dequev _ _ _, pfx, widx, l => by simp [memDbgRecOn]
  | .arrv _ _, pfx, widx, l => by simp [memDbgRecOn]
  | .hashSetv _ _ _, pfx, widx, l => by simp [memDbgRecOn]
  | .btreeSetv _ _, pfx, widx, l => by simp [memDbgRecOn]
theorem fieldsPct (sink : Nat → Bool) (fl : DbgFlags) (maxD : Nat)
    (hp : fl.percentage = true) :
    ∀ (vs : RVals) (pads : List Nat) (i n : Nat) (pfx : List Bool)
      (widx : Nat) (l : OutLine),
      l ∈ (renderFields sink fl 0 maxD pfx vs pads i n widx).lines →
        pctHundred l = true
  | .nil, pads, i, n, pfx, widx, l => by simp [renderFields]
  | .cons v vs, pads, i, n, pfx, widx, l => by
      rw [renderFields]
      split
      · intro hl
        exact depthOnPct sink fl maxD hp v pfx (some (toString i))
          (i + 1 == n) (pads.headD 0) widx l hl
      · intro hl
        simp only [List.mem_append] at hl
        rcases hl with hl | hl
        · exact depthOnPct sink fl maxD hp v pfx (some (toString i))
            (i + 1 == n) (pads.headD 0) widx l hl
        · exact fieldsPct sink fl maxD hp vs pads.tail (i + 1) n pfx _ l hl
end

/-! ### Claim theorems -/

theorem stackLeRec (f : SizeFlags) (v : RVal) (refs : RefMap) :
    sizeOf' (tyOf v) ≤ (memSizeRec f v refs).1 := by
  cases v <;>
    simp only [memSizeRec, tyOf, sizeOf', fixSetForCapacity] <;>
      first
        | omega
        | (split_ifs <;> omega)

/-- Stack size of a one-field tuple holding a reference. -/
theorem tupRefSize1 (t : RTy) :
    sizeOf' (.tupT (.cons (.rrefT t) .nil)) = ptrSizeOf t := by
  cases t <;> simp [sizeOf', ptrSizeOf, offEnd, alignsOf, alignOf, alignUp]

/-- Stack size of a two-field tuple holding two references. -/
theorem tupRefSize2 (t : RTy) :
    sizeOf' (.tupT (.cons (.rrefT t) (.cons (.rrefT t) .nil))) =
      2 * ptrSizeOf t := by
  cases t <;> simp [sizeOf', ptrSizeOf, offEnd, alignsOf, alignOf, alignUp]

/-- Stack size of tuples of one and two `Rc` handles. -/
theorem tupRcSize (t : RTy) :
    sizeOf' (.tupT (.cons (.rcT t) .nil)) = 8 ∧
      sizeOf' (.tupT (.cons (.rcT t) (.cons (.rcT t) .nil))) = 16 := by
  constructor <;> simp [sizeOf', offEnd, alignsOf, alignOf, alignUp]

/-- A fresh address inside the final table must come from the value. -/
theorem freshKeyAbsent (f : SizeFlags) (a : Nat) (p : RVal)
    (hfresh : refMentions a p = false) :
    hasKey a (memSizeRec f p []).2 = false := by
  by_cases hcon : hasKey a (memSizeRec f p []).2 = true
  · rcases keysSub f a p [] hcon with h1 | h1
    · simp [hasKey] at h1
    · rw [hfresh] at h1
      simp at h1
  · simpa using hcon

/-- C1: for a borrowed (or mutable) reference, `mem_size` without
`FOLLOW_REFS` reports only the pointer's own stack size; with `FOLLOW_REFS`
it adds the referent's size to the total exactly once per distinct address,
so a referent reachable through two reference fields of one composite is
counted once: the aliased two-field struct weighs exactly one pointer more
than the one-field struct. -/
theorem c1_follow_refs_dedup (f : SizeFlags) (a : Nat) (p : RVal)
    (hfresh : refMentions a p = false) :
    (f.followRefs = false → memSize f (.vref a p) = ptrSizeOf (tyOf p)) ∧
      (f.followRefs = true →
        memSize f (.vref a p) = ptrSizeOf (tyOf p) + memSize f p) ∧
      (f.followRefs = true →
        memSize f (.tupv (.cons (.vref a p) (.cons (.vref a p) .nil))) =
          ptrSizeOf (tyOf p) + memSize f (.tupv (.cons (.vref a p) .nil))) := by
  refine ⟨?_, ?_, ?_⟩
  · intro hf
    simp [memSize, memSizeRec, hf, sumValues]
  · intro hf
    have habs := freshKeyAbsent f a p hfresh
    simp only [memSize, memSizeRec, hf, if_true, hasKey, List.any_nil,
      Bool.false_eq_true, if_false]
    rw [sumValues_addKV _ _ _ habs]
  · intro hf
    have h1 : memSizeRec f (.vref a p) [] =
        (ptrSizeOf (tyOf p),
          addKV a (memSizeRec f p []).1 (memSizeRec f p []).2) := by
      simp [memSizeRec, hf, hasKey]
    have h2 : memSizeRec f (.vref a p)
        (addKV a (memSizeRec f p []).1 (memSizeRec f p []).2) =
        (ptrSizeOf (tyOf p),
          addKV a (memSizeRec f p []).1 (memSizeRec f p []).2) := by
      rw [memSizeRec]
      simp [hf, hasKey_addKV_self]
    have hsv : sizeOfVal (.vref a p) = ptrSizeOf (tyOf p) := by
      simp [sizeOfVal, tyOf, sizeOf']
    have e1 : extraSizes f (.cons (.vref a p) .nil)
        (addKV a (memSizeRec f p []).1 (memSizeRec f p []).2) =
        (0, addKV a (memSizeRec f p []).1 (memSizeRec f p []).2) := by
      simp only [extraSizes, h2, hsv]
      simp
    have e2 : extraSizes f (.cons (.vref a p) (.cons (.vref a p) .nil)) [] =
        (0, addKV a (memSizeRec f p []).1 (memSizeRec f p []).2) := by
      simp only [extraSizes, h1, e1, h2, hsv]
      simp
    have e3 : extraSizes f (.cons (.vref a p) .nil) [] =
        (0, addKV a (memSizeRec f p []).1 (memSizeRec f p []).2) := by
      simp only [extraSizes, h1, hsv]
      simp [extraSizes]
    show (memSizeRec f (.tupv (.cons (.vref a p) (.cons (.vref a p) .nil))) []).1 +
        sumValues (memSizeRec f (.tupv (.cons (.vref a p) (.cons (.vref a p) .nil))) []).2 =
      ptrSizeOf (tyOf p) +
        ((memSizeRec f (.tupv (.cons (.vref a p) .nil)) []).1 +
          sumValues (memSizeRec f (.tupv (.cons (.vref a p) .nil)) []).2)
    simp only [memSizeRec, e2, e3, tyOf, tysOf, tupRefSize1, tupRefSize2]
    omega

/-- C3: for a reference-counted pointer (`Rc`/`Arc` share one
implementation shape), `mem_size` without `FOLLOW_RC` reports only the
8-byte handle; with `FOLLOW_RC` it additionally accounts once per distinct
allocation for the referent plus the `RcInner` bookkeeping header (strong
and weak counts), and a handle aliased twice inside one composite counts
the allocation once: the two-field struct weighs exactly one handle more
than the one-field struct. -/
theorem c3_follow_rc_dedup (f : SizeFlags) (a : Nat) (p : RVal)
    (hfresh : refMentions a p = false) :
    (f.followRc = false → memSize f (.rcv a p) = 8) ∧
      (f.followRc = true →
        memSize f (.rcv a p) + sizeOf' (tyOf p) =
          8 + rcInnerSize (tyOf p) + memSize f p) ∧
      (f.followRc = true →
        memSize f (.tupv (.cons (.rcv a p) (.cons (.rcv a p) .nil))) =
          8 + memSize f (.tupv (.cons (.rcv a p) .nil))) := by
  refine ⟨?_, ?_, ?_⟩
  · intro hf
    simp [memSize, memSizeRec, hf, sumValues]
  · intro hf
    have habs := freshKeyAbsent f a p hfresh
    have hrc : sizeOf' (tyOf p) ≤ rcInnerSize (tyOf p) := by
      have h8 : 0 < max 8 (alignOf (tyOf p)) := by omega
      have := le_alignUp (16 + sizeOf' (tyOf p)) (max 8 (alignOf (tyOf p))) h8
      unfold rcInnerSize
      omega
    simp only [memSize, memSizeRec, hf, if_true, hasKey, List.any_nil,
      Bool.false_eq_true, if_false]
    rw [sumValues_addKV _ _ _ habs]
    omega
  · intro hf
    have h1 : memSizeRec f (.rcv a p) [] =
        (8, addKV a
          (rcInnerSize (tyOf p) + (memSizeRec f p []).1 - sizeOf' (tyOf p))
          (memSizeRec f p []).2) := by
      simp [memSizeRec, hf, hasKey]
    have h2 : memSizeRec f (.rcv a p)
        (addKV a
          (rcInnerSize (tyOf p) + (memSizeRec f p []).1 - sizeOf' (tyOf p))
          (memSizeRec f p []).2) =
        (8, addKV a
          (rcInnerSize (tyOf p) + (memSizeRec f p []).1 - sizeOf' (tyOf p))
          (memSizeRec f p []).2) := by
      rw [memSizeRec]
      simp [hf, hasKey_addKV_self]
    have hsv : sizeOfVal (.rcv a p) = 8 := by
      simp [sizeOfVal, tyOf, sizeOf']
    have e1 : extraSizes f (.cons (.rcv a p) .nil)
        (addKV a
          (rcInnerSize (tyOf p) + (memSizeRec f p []).1 - sizeOf' (tyOf p))
          (memSizeRec f p []).2) =
        (0, addKV a
          (rcInnerSize (tyOf p) + (memSizeRec f p []).1 - sizeOf' (tyOf p))
          (memSizeRec f p []).2) := by
      simp only [extraSizes, h2, hsv]
    have e2 : extraSizes f (.cons (.rcv a p) (.cons (.rcv a p) .nil)) [] =
        (0, addKV a
          (rcInnerSize (tyOf p) + (memSizeRec f p []).1 - sizeOf' (tyOf p))
          (memSizeRec f p []).2) := by
      simp only [extraSizes, h1, e1, h2, hsv]
    have e3 : extraSizes f (.cons (.rcv a p) .nil) [] =
        (0, addKV a
          (rcInnerSize (tyOf p) + (memSizeRec f p []).1 - sizeOf' (tyOf p))
          (memSizeRec f p []).2) := by
      simp only [extraSizes, h1, hsv]
    show (memSizeRec f (.tupv (.cons (.rcv a p) (.cons (.rcv a p) .nil))) []).1 +
        sumValues (memSizeRec f (.tupv (.cons (.rcv a p) (.cons (.rcv a p) .nil))) []).2 =
      8 + ((memSizeRec f (.tupv (.cons (.rcv a p) .nil)) []).1 +
          sumValues (memSizeRec f (.tupv (.cons (.rcv a p) .nil)) []).2)
    simp only [memSizeRec, e2, e3, tyOf, tysOf, (tupRcSize (tyOf p)).1,
      (tupRcSize (tyOf p)).2]
    omega

/-- C7: every subtraction `extra = child_total - child_stack_size` in the
size engine is non-negative: for every value, with any flags and any
visited table, the recursively computed size (and the top-level total) is
at least the stack size of the value's static type, so the engine never
underflows on the extra-size subtraction. -/
theorem c7_extra_size_never_underflows (f : SizeFlags) (v : RVal)
    (refs : RefMap) :
    sizeOf' (tyOf v) ≤ (memSizeRec f v refs).1 ∧
      sizeOf' (tyOf v) ≤ memSize f v := by
  refine ⟨stackLeRec f v refs, ?_⟩
  have := stackLeRec f v []
  simp only [memSize]
  omega

/-- C9 counterexample: a borrowed `str` slice of length 3 reports
`size_of::<usize>() + 3 = 11` bytes under the default flags, not 3: the
implementation adds a `usize`-sized header to the slice's length. -/
theorem c9_counterexample :
    memSize SizeFlags.dflt (.strSlice 3) = 11 ∧
      memSize SizeFlags.dflt (.strSlice 3) ≠ 3 := by
  constructor <;> decide

/-- C9 (amended): for every borrowed UTF-8 slice and every flag
configuration, `mem_size_rec` returns the slice's byte length plus
`size_of::<usize>()` (8 bytes) and leaves the visited table unchanged;
the top-level `mem_size` reports the same total. -/
theorem c9_str_len_plus_usize (n : Nat) (f : SizeFlags) (refs : RefMap) :
    memSizeRec f (.strSlice n) refs = (8 + n, refs) ∧
      memSize f (.strSlice n) = 8 + n := by
  constructor
  · rfl
  · simp [memSize, memSizeRec, sumValues]

/-- C2 counterexample: with `FOLLOW_REFS` set, traversing a reference at a
fresh address 0 yields the event order `[enter 0, ins 0]`: the code
recurses into the pointee first and inserts the address only afterwards,
so the insertion does not happen before recursing into the pointee. -/
theorem c2_counterexample :
    traceOf ⟨true, false, false⟩ (.vref 0 (.prim 4 4 true)) [] =
        [REvent.enter 0, REvent.ins 0] ∧
      (traceOf ⟨true, false, false⟩ (.vref 0 (.prim 4 4 true)) []).head? ≠
        some (REvent.ins 0) := by
  constructor <;> decide

/-- C2 (amended): an address is checked against the visited table before
recursing, an address already present is skipped with the table unchanged
and no traversal events, on first visit the pointee is entered first and
the address inserted only after its size is computed, and entries already
in the table before a call are never modified by the traversal. -/
theorem c2_insert_after_recursion (f : SizeFlags) (a : Nat) (p v : RVal)
    (refs : RefMap) (x s : Nat) :
    (f.followRefs = true → hasKey a refs = true →
      memSizeRec f (.vref a p) refs = (ptrSizeOf (tyOf p), refs) ∧
        traceOf f (.vref a p) refs = []) ∧
    (f.followRefs = true → hasKey a refs = false →
      traceOf f (.vref a p) refs =
        REvent.enter a :: traceOf f p refs ++ [REvent.ins a]) ∧
    (f.followRc = true → hasKey a refs = true →
      memSizeRec f (.rcv a p) refs = (8, refs) ∧
        traceOf f (.rcv a p) refs = []) ∧
    (f.followRc = true → hasKey a refs = false →
      traceOf f (.rcv a p) refs =
        REvent.enter a :: traceOf f p refs ++ [REvent.ins a]) ∧
    (lookupKV x refs = some s →
      lookupKV x (memSizeRec f v refs).2 = some s) := by
  refine ⟨?_, ?_, ?_, ?_, ?_⟩
  · intro hf hk
    exact ⟨by simp [memSizeRec, hf, hk], by simp [traceOf, hf, hk]⟩
  · intro hf hk
    simp [traceOf, hf, hk]
  · intro hf hk
    exact ⟨by simp [memSizeRec, hf, hk], by simp [traceOf, hf, hk]⟩
  · intro hf hk
    simp [traceOf, hf, hk]
  · exact lookupPresv f x s v refs

/-- The engine's bucket count agrees with the specification's formula
whenever `cap * 8` does not overflow `usize`. -/
theorem bucketsEq (c : Nat) (hc : c * 8 ≤ usizeMax) :
    capacityToBuckets c = some (claimedBuckets c) := by
  unfold capacityToBuckets claimedBuckets
  split_ifs <;> first | rfl | omega

/-- C4: the engine derives the bucket count from the live length (length
mode) or the capacity (capacity mode) by the host's formula — 0 buckets
when empty, 4 below 4 entries, 8 below 8, else `count * 8 / 7` rounded up
to a power of two — and adds one control byte per bucket, the
unused-bucket slack, and the fixed group-width constant when there is at
least one bucket; an empty hash set in length mode reports exactly its
stack header size. -/
theorem c4_hash_bucket_model :
    (∀ c : Nat, c * 8 ≤ usizeMax →
      capacityToBuckets c = some (claimedBuckets c)) ∧
    (∀ (f : SizeFlags) (t : RTy) (ks : RVals) (cap : Nat) (refs : RefMap),
      (if f.capacity then cap else rvalsLen ks) * 8 ≤ usizeMax →
      (memSizeRec f (.hashSetv t ks cap) refs).1 =
        48 + (if isCopy t then sizeOf' t * rvalsLen ks
              else (sumSizes f ks refs).1)
          + (claimedBuckets (if f.capacity then cap else rvalsLen ks)
              - rvalsLen ks) * sizeOf' t
          + claimedBuckets (if f.capacity then cap else rvalsLen ks) * 1
          + (if 0 < claimedBuckets (if f.capacity then cap else rvalsLen ks)
             then groupWidth else 0)) ∧
    (∀ (f : SizeFlags) (kT vT : RTy) (len cap contents : Nat),
      (if f.capacity then cap else len) * 8 ≤ usizeMax →
      fixMapForCapacity f kT vT len cap contents =
        48 + contents
          + (claimedBuckets (if f.capacity then cap else len) - len) *
              (sizeOf' kT + sizeOf' vT)
          + claimedBuckets (if f.capacity then cap else len) * 1
          + (if 0 < claimedBuckets (if f.capacity then cap else len)
             then groupWidth else 0)) ∧
    (∀ (f : SizeFlags) (t : RTy) (cap : Nat), f.capacity = false →
      memSize f (.hashSetv t .nil cap) = sizeOf' (.hashSetT t)) := by
  refine ⟨bucketsEq, ?_, ?_, ?_⟩
  · intro f t ks cap refs hov
    by_cases hct : isCopy t <;>
      simp [memSizeRec, hct, fixSetForCapacity, bucketsEq _ hov]
  · intro f kT vT len cap contents hov
    simp [fixMapForCapacity, bucketsEq _ hov]
  · intro f t cap hcap
    by_cases hct : isCopy t <;>
      simp [memSize, memSizeRec, hct, fixSetForCapacity, hcap, sumSizes,
        rvalsLen, capacityToBuckets, sumValues, sizeOf']

/-- C5 counterexample: a vector with outer length equal to outer capacity
(both 1) holding one `String` of length 0 and capacity 5 reports 48 bytes
under the default flags but 53 under `CAPACITY`, so equality at equal
outer length and capacity fails. -/
theorem c5_counterexample :
    memSize SizeFlags.dflt (.vecv .stringT (.cons (.strv 0 5) .nil) 1) = 48 ∧
      memSize ⟨false, true, false⟩
          (.vecv .stringT (.cons (.strv 0 5) .nil) 1) = 53 := by
  constructor <;> decide

/-- C5 (amended): for every value whose containers respect their
capacities, the default-flag size is at most the `CAPACITY`-flag size, and
the two coincide when every growable container inside the value (not just
the outermost one) has length equal to capacity. -/
theorem c5_capacity_monotone (v : RVal) :
    (capOk v = true →
      memSize SizeFlags.dflt v ≤ memSize ⟨false, true, false⟩ v) ∧
    (fullCap v = true →
      memSize SizeFlags.dflt v = memSize ⟨false, true, false⟩ v) := by
  constructor
  · intro h
    have h1 : (memSizeRec ⟨false, false, false⟩ v []).1 ≤
        (memSizeRec ⟨false, true, false⟩ v []).1 := capMonoV v [] h
    have e0 := mapNoFollow ⟨false, false, false⟩ rfl rfl v ([] : RefMap)
    have e1 := mapNoFollow ⟨false, true, false⟩ rfl rfl v ([] : RefMap)
    simp only [memSize, SizeFlags.dflt, e0, e1, sumValues, List.map_nil,
      List.sum_nil]
    omega
  · intro h
    have h1 : (memSizeRec ⟨false, false, false⟩ v []).1 =
        (memSizeRec ⟨false, true, false⟩ v []).1 := fullEqV v [] h
    have e0 := mapNoFollow ⟨false, false, false⟩ rfl rfl v ([] : RefMap)
    have e1 := mapNoFollow ⟨false, true, false⟩ rfl rfl v ([] : RefMap)
    simp only [memSize, SizeFlags.dflt, e0, e1, sumValues, List.map_nil,
      List.sum_nil]
    omega

/-- The root line of a rendering call: empty indentation, no branch glyph,
root marker `⏺`, zero padding, and a percentage of exactly 100 (the root's
own size is the total). -/
def rootNodeLine (fl : DbgFlags) (v : RVal) : NodeLine :=
  { size := memSize fl.toSizeFlags v
    pct := if fl.percentage then some (100 : ℚ) else none
    pfxShown := []
    glyphLast := none
    name := some ("⏺")
    tyShown := if fl.typeName then some (tyOf v) else none
    padByte := 0 }

/-- C6 (amended): `mem_dbg_depth` with `max_depth = 0` renders the root
line, followed — for an enum value, also one found through a chain of
boxes — by the enum's variant header line, and no field lines; and
`mem_dbg_depth` with `max_depth = usize::MAX` renders exactly what the
unbounded `mem_dbg` renders. -/
theorem c6_depth_limited_rendering (fl : DbgFlags) (sink : Nat → Bool)
    (v : RVal) (hs : ∀ n, sink n = true) (hrl : fl.rustLayout = false) :
    memDbgDepth sink fl v 0 =
      ⟨.node (rootNodeLine fl v) ::
          variantTail fl (memSize fl.toSizeFlags v) [true] v,
        1 + (variantTail fl (memSize fl.toSizeFlags v) [true] v).length,
        none⟩ ∧
      memDbgDepth sink fl v usizeMax = memDbg sink fl v := by
  constructor
  · rw [memDbgDepth, memDbgDepthOn]
    have h0 : ¬ pfxByteLen [] > 0 := by simp [pfxByteLen]
    rw [if_neg h0, hs 0]
    simp only [if_true, List.nil_append, Nat.zero_add]
    rw [recOnPruned sink fl (memSize fl.toSizeFlags v) 0 hs hrl [true]
      (by simp [pfxByteLen]) v 1]
    have hpct : (if fl.percentage = true then
        some (if memSize fl.toSizeFlags v = 0 then (100 : ℚ)
              else 100 * (memSize fl.toSizeFlags v : ℚ) /
                (memSize fl.toSizeFlags v : ℚ))
        else none) = (if fl.percentage = true then some (100 : ℚ) else none) := by
      by_cases ht : memSize fl.toSizeFlags v = 0
      · simp [ht]
      · have hq : ((memSize fl.toSizeFlags v : ℚ)) ≠ 0 := by exact_mod_cast ht
        simp [ht, mul_div_assoc, div_self hq]
    simp [rootNodeLine, hpct, Nat.sub_self, Nat.add_comm]
  · rfl

/-- C8 counterexample: rendering an enum value with `RUST_LAYOUT` set (in
a build without the `offset_of_enum` feature) fails through the generated
`assert!`, with a sink that never fails a write, so the renderer has a
failure mode other than propagating a sink write failure. -/
theorem c8_counterexample :
    (memDbg allOk { DbgFlags.dflt with rustLayout := true }
        (.enumv 16 8 ("V") (.cons (.prim 8 8 true) .nil))).err =
      some RErr.assertFailed ∧
      RErr.assertFailed ≠ RErr.writeFailed := by
  constructor
  · simp +decide [memDbg, memDbgDepth, memDbgDepthOn, memDbgRecOn,
      renderFields, allOk, pfxByteLen, memSize, memSizeRec, extraSizes,
      sumValues, DbgFlags.dflt, DbgFlags.toSizeFlags, nOfDigits, digitsLoop,
      sizeOfVal, tyOf, sizeOf', alignOf, alignUp, surrPads, rvalsEmpty,
      rvalsLen, usizeMax, enumWidth]
  · decide

/-- C8 (amended): rendering propagates sink write failures as the
formatting error — with a sink that always fails, the very first write
makes the call fail with the write error — and with a never-failing sink
the only remaining failure mode is the `RUST_LAYOUT` assertion for enums:
without that flag rendering succeeds, and a write error is impossible. -/
theorem c8_failure_modes (fl : DbgFlags) (sink : Nat → Bool) (v : RVal)
    (maxD : Nat) :
    ((∀ n, sink n = true) → fl.rustLayout = false →
      (memDbgDepth sink fl v maxD).err = none) ∧
    ((∀ n, sink n = true) →
      (memDbgDepth sink fl v maxD).err ≠ some RErr.writeFailed) ∧
    (memDbgDepth (fun _ => false) fl v maxD).err = some RErr.writeFailed := by
  refine ⟨?_, ?_, ?_⟩
  · intro hs hrl
    exact depthOnErrNone sink fl (memSize fl.toSizeFlags v) maxD hs hrl v []
      (some ("⏺")) true (sizeOfVal v) 0
  · intro hs
    exact depthOnNoWF sink fl (memSize fl.toSizeFlags v) maxD hs v []
      (some ("⏺")) true (sizeOfVal v) 0
  · rw [memDbgDepth, memDbgDepthOn]
    simp [pfxByteLen]

/-- C10: when the total size computed for the root is 0 and `PERCENTAGE`
is set, every rendered node line reports exactly 100 percent instead of
evaluating `real_size / total_size`, and rendering still succeeds (with a
non-failing sink and no `RUST_LAYOUT` assertion involved). -/
theorem c10_zero_total_percentage (fl : DbgFlags) (sink : Nat → Bool)
    (v : RVal) (maxD : Nat) (hs : ∀ n, sink n = true)
    (hrl : fl.rustLayout = false) (hp : fl.percentage = true)
    (h0 : memSize fl.toSizeFlags v = 0) :
    (memDbgDepth sink fl v maxD).err = none ∧
      ∀ l ∈ (memDbgDepth sink fl v maxD).lines, pctHundred l = true := by
  constructor
  · exact depthOnErrNone sink fl (memSize fl.toSizeFlags v) maxD hs hrl v []
      (some ("⏺")) true (sizeOfVal v) 0
  · rw [memDbgDepth, h0]
    exact depthOnPct sink fl maxD hp v [] (some ("⏺")) true (sizeOfVal v) 0

/-- C6 counterexample: rendering an enum value with `max_depth = 0` emits
two lines — the root line followed by the variant header line — not
exactly the root line. -/
theorem c6_counterexample :
    (memDbgDepth allOk DbgFlags.dflt
        (.enumv 16 8 ("V") (.cons (.prim 8 8 true) .nil)) 0).lines.length = 2 ∧
      (memDbgDepth allOk DbgFlags.dflt
          (.enumv 16 8 ("V") (.cons (.prim 8 8 true) .nil)) 0).lines.map
          OutLine.isVariantLine = [false, true] := by
  constructor <;>
    simp +decide [memDbgDepth, memDbgDepthOn, memDbgRecOn, renderFields,
      allOk, pfxByteLen, memSize, memSizeRec, extraSizes, sumValues,
      DbgFlags.dflt, DbgFlags.toSizeFlags, nOfDigits, digitsLoop, sizeOfVal,
      tyOf, sizeOf', alignOf, alignUp, surrPads, rvalsEmpty, rvalsLen,
      enumWidth, OutLine.isVariantLine]

/-- Witness for C1 at concrete inputs. -/
theorem c1_follow_refs_dedup_witness :
    refMentions 0 (.prim 4 4 true) = false ∧
      memSize ⟨false, false, false⟩ (.vref 0 (.prim 4 4 true)) =
        ptrSizeOf (tyOf (.prim 4 4 true)) ∧
      memSize ⟨true, false, false⟩ (.vref 0 (.prim 4 4 true)) =
        ptrSizeOf (tyOf (.prim 4 4 true)) +
          memSize ⟨true, false, false⟩ (.prim 4 4 true) ∧
      memSize ⟨true, false, false⟩
          (.tupv (.cons (.vref 0 (.prim 4 4 true))
            (.cons (.vref 0 (.prim 4 4 true)) .nil))) =
        ptrSizeOf (tyOf (.prim 4 4 true)) +
          memSize ⟨true, false, false⟩
            (.tupv (.cons (.vref 0 (.prim 4 4 true)) .nil)) :=
  ⟨by decide,
   (c1_follow_refs_dedup ⟨false, false, false⟩ 0 (.prim 4 4 true)
      (by decide)).1 rfl,
   (c1_follow_refs_dedup ⟨true, false, false⟩ 0 (.prim 4 4 true)
      (by decide)).2.1 rfl,
   (c1_follow_refs_dedup ⟨true, false, false⟩ 0 (.prim 4 4 true)
      (by decide)).2.2 rfl⟩

/-- Witness for C2 at concrete inputs. -/
theorem c2_insert_after_recursion_witness :
    (memSizeRec ⟨true, false, false⟩ (.vref 0 (.prim 4 4 true)) [(0, 9)] =
        (ptrSizeOf (tyOf (.prim 4 4 true)), [(0, 9)]) ∧
      traceOf ⟨true, false, false⟩ (.vref 0 (.prim 4 4 true)) [(0, 9)] = []) ∧
    traceOf ⟨true, false, false⟩ (.vref 0 (.prim 4 4 true)) [(5, 7)] =
      REvent.enter 0 ::
        traceOf ⟨true, false, false⟩ (.prim 4 4 true) [(5, 7)] ++
          [REvent.ins 0] ∧
    lookupKV 5 (memSizeRec ⟨true, false, false⟩
        (.vref 0 (.prim 4 4 true)) [(5, 7)]).2 = some 7 :=
  ⟨(c2_insert_after_recursion ⟨true, false, false⟩ 0 (.prim 4 4 true)
      (.prim 4 4 true) [(0, 9)] 5 7).1 rfl (by decide),
   (c2_insert_after_recursion ⟨true, false, false⟩ 0 (.prim 4 4 true)
      (.prim 4 4 true) [(5, 7)] 5 7).2.1 rfl (by decide),
   (c2_insert_after_recursion ⟨true, false, false⟩ 0 (.prim 4 4 true)
      (.vref 0 (.prim 4 4 true)) [(5, 7)] 5 7).2.2.2.2 (by decide)⟩

/-- Witness for C3 at concrete inputs. -/
theorem c3_follow_rc_dedup_witness :
    refMentions 0 (.prim 4 4 true) = false ∧
      memSize ⟨false, false, false⟩ (.rcv 0 (.prim 4 4 true)) = 8 ∧
      memSize ⟨false, false, true⟩ (.rcv 0 (.prim 4 4 true)) +
          sizeOf' (tyOf (.prim 4 4 true)) =
        8 + rcInnerSize (tyOf (.prim 4 4 true)) +
          memSize ⟨false, false, true⟩ (.prim 4 4 true) ∧
      memSize ⟨false, false, true⟩
          (.tupv (.cons (.rcv 0 (.prim 4 4 true))
            (.cons (.rcv 0 (.prim 4 4 true)) .nil))) =
        8 + memSize ⟨false, false, true⟩
            (.tupv (.cons (.rcv 0 (.prim 4 4 true)) .nil)) :=
  ⟨by decide,
   (c3_follow_rc_dedup ⟨false, false, false⟩ 0 (.prim 4 4 true)
      (by decide)).1 rfl,
   (c3_follow_rc_dedup ⟨false, false, true⟩ 0 (.prim 4 4 true)
      (by decide)).2.1 rfl,
   (c3_follow_rc_dedup ⟨false, false, true⟩ 0 (.prim 4 4 true)
      (by decide)).2.2 rfl⟩

/-- Witness for C4 at concrete inputs. -/
theorem c4_hash_bucket_model_witness :
    capacityToBuckets 9 = some (claimedBuckets 9) ∧
      (memSizeRec SizeFlags.dflt
          (.hashSetv (.prim 8 8 true) (.cons (.prim 8 8 true) .nil) 3) []).1 =
        48 + (if isCopy (.prim 8 8 true) then
                sizeOf' (.prim 8 8 true) *
                  rvalsLen (.cons (.prim 8 8 true) .nil)
              else (sumSizes SizeFlags.dflt
                (.cons (.prim 8 8 true) .nil) []).1)
          + (claimedBuckets (if SizeFlags.dflt.capacity then 3
              else rvalsLen (.cons (.prim 8 8 true) .nil))
              - rvalsLen (.cons (.prim 8 8 true) .nil)) *
            sizeOf' (.prim 8 8 true)
          + claimedBuckets (if SizeFlags.dflt.capacity then 3
              else rvalsLen (.cons (.prim 8 8 true) .nil)) * 1
          + (if 0 < claimedBuckets (if SizeFlags.dflt.capacity then 3
              else rvalsLen (.cons (.prim 8 8 true) .nil))
             then groupWidth else 0) ∧
      fixMapForCapacity SizeFlags.dflt (.prim 8 8 true) (.prim 4 4 true) 2 5 40 =
        48 + 40
          + (claimedBuckets (if SizeFlags.dflt.capacity then 5 else 2) - 2) *
              (sizeOf' (.prim 8 8 true) + sizeOf' (.prim 4 4 true))
          + claimedBuckets (if SizeFlags.dflt.capacity then 5 else 2) * 1
          + (if 0 < claimedBuckets (if SizeFlags.dflt.capacity then 5 else 2)
             then groupWidth else 0) ∧
      memSize SizeFlags.dflt (.hashSetv (.prim 8 8 true) .nil 4) =
        sizeOf' (.hashSetT (.prim 8 8 true)) :=
  ⟨c4_hash_bucket_model.1 9 (by decide),
   c4_hash_bucket_model.2.1 SizeFlags.dflt (.prim 8 8 true)
     (.cons (.prim 8 8 true) .nil) 3 [] (by decide),
   c4_hash_bucket_model.2.2.1 SizeFlags.dflt (.prim 8 8 true) (.prim 4 4 true)
     2 5 40 (by decide),
   c4_hash_bucket_model.2.2.2 SizeFlags.dflt (.prim 8 8 true) 4 rfl⟩

/-- Witness for C5 at concrete inputs. -/
theorem c5_capacity_monotone_witness :
    capOk (.vecv (.prim 8 8 true) (.cons (.prim 8 8 true) .nil) 1) = true ∧
      memSize SizeFlags.dflt
          (.vecv (.prim 8 8 true) (.cons (.prim 8 8 true) .nil) 1) ≤
        memSize ⟨false, true, false⟩
          (.vecv (.prim 8 8 true) (.cons (.prim 8 8 true) .nil) 1) ∧
      fullCap (.vecv (.prim 8 8 true) (.cons (.prim 8 8 true) .nil) 1) = true ∧
      memSize SizeFlags.dflt
          (.vecv (.prim 8 8 true) (.cons (.prim 8 8 true) .nil) 1) =
        memSize ⟨false, true, false⟩
          (.vecv (.prim 8 8 true) (.cons (.prim 8 8 true) .nil) 1) :=
  ⟨by decide,
   (c5_capacity_monotone
      (.vecv (.prim 8 8 true) (.cons (.prim 8 8 true) .nil) 1)).1 (by decide),
   by decide,
   (c5_capacity_monotone
      (.vecv (.prim 8 8 true) (.cons (.prim 8 8 true) .nil) 1)).2 (by decide)⟩

/-- Witness for C6 at concrete inputs. -/
theorem c6_depth_limited_rendering_witness :
    memDbgDepth allOk DbgFlags.dflt
        (.enumv 16 8 ("V") (.cons (.prim 8 8 true) .nil)) 0 =
      ⟨.node (rootNodeLine DbgFlags.dflt
            (.enumv 16 8 ("V") (.cons (.prim 8 8 true) .nil))) ::
          variantTail DbgFlags.dflt
            (memSize DbgFlags.dflt.toSizeFlags
              (.enumv 16 8 ("V") (.cons (.prim 8 8 true) .nil)))
            [true] (.enumv 16 8 ("V") (.cons (.prim 8 8 true) .nil)),
        1 + (variantTail DbgFlags.dflt
            (memSize DbgFlags.dflt.toSizeFlags
              (.enumv 16 8 ("V") (.cons (.prim 8 8 true) .nil)))
            [true] (.enumv 16 8 ("V") (.cons (.prim 8 8 true) .nil))).length,
        none⟩ ∧
      memDbgDepth allOk DbgFlags.dflt
          (.enumv 16 8 ("V") (.cons (.prim 8 8 true) .nil)) usizeMax =
        memDbg allOk DbgFlags.dflt
          (.enumv 16 8 ("V") (.cons (.prim 8 8 true) .nil)) :=
  c6_depth_limited_rendering DbgFlags.dflt allOk
    (.enumv 16 8 ("V") (.cons (.prim 8 8 true) .nil)) (fun _ => rfl) rfl

/-- Witness for C8 at concrete inputs. -/
theorem c8_failure_modes_witness :
    (memDbgDepth allOk DbgFlags.dflt (.prim 8 8 true) 5).err = none ∧
      (memDbgDepth allOk DbgFlags.dflt (.prim 8 8 true) 5).err ≠
        some RErr.writeFailed ∧
      (memDbgDepth (fun _ => false) DbgFlags.dflt (.prim 8 8 true) 5).err =
        some RErr.writeFailed :=
  ⟨(c8_failure_modes DbgFlags.dflt allOk (.prim 8 8 true) 5).1
      (fun _ => rfl) rfl,
   (c8_failure_modes DbgFlags.dflt allOk (.prim 8 8 true) 5).2.1
      (fun _ => rfl),
   (c8_failure_modes DbgFlags.dflt allOk (.prim 8 8 true) 5).2.2⟩

/-- Witness for C10 at concrete inputs. -/
theorem c10_zero_total_percentage_witness :
    (memDbgDepth allOk DbgFlags.dflt (.prim 0 1 true) 3).err = none ∧
      ∀ l ∈ (memDbgDepth allOk DbgFlags.dflt (.prim 0 1 true) 3).lines,
        pctHundred l = true :=
  c10_zero_total_percentage DbgFlags.dflt allOk (.prim 0 1 true) 3
    (fun _ => rfl) rfl rfl (by decide)

end MemDbg
